import Mathlib

/-!
# Verification of the athenaeum chunking + hybrid ranking engine

Shallow embedding, in Lean 4, of the core of the `athenaeum` repository:

* `src/athenaeum/chunker.py`      — `make_splitter`, `auto_chunk_splitter`, `chunk_markdown`
* `src/athenaeum/search/hybrid.py`— `reciprocal_rank_fusion`
* `src/athenaeum/search/bm25.py`  — `BM25Index`
* `src/athenaeum/athenaeum.py`    — `Athenaeum.search_docs`, `Athenaeum.read_doc`
* `src/athenaeum/document_store.py` — `DocumentStore.list_by_tags`
* `src/athenaeum/models.py`       — the pydantic data models

Modelling conventions:

* Python strings are `List Char`; Python `float` scores are modelled as `ℚ`
  (the programs only add, divide and compare scores, and every claim under
  study concerns those exact values, not rounding);
* Python dicts (which preserve insertion order) are association lists with
  update-in-place / append-if-new semantics (`upsert`);
* Python's stable `list.sort(key=..., reverse=True)` is
  `List.insertionSort` with the relation "left score is not smaller",
  which is stable and sorts descending, matching timsort's observable
  behaviour for a score key with `reverse=True`;
* external collaborators (the LangChain text splitter, the `rank_bm25`
  scoring function, the vector index) are parameters of the functions that
  call them.
-/

/-- `ChunkMetadata` from `models.py`: one chunk of a document. -/
structure ChunkMeta where
  docId : String
  chunkIndex : Nat
  startLine : Nat
  endLine : Nat
  text : List Char
deriving DecidableEq, Repr

/-- Number of newline characters in a text. -/
def countNl (l : List Char) : Nat := l.count '\n'

/-- `len(text.split "\n")` as used by `load_doc` / `read_doc`:
the number of 1-indexed lines of a text. -/
def numLines (l : List Char) : Nat := countNl l + 1

/-- Python `text.split("\n")`: the list of lines (without the newlines);
splitting the empty text gives one empty line. -/
def splitNl : List Char → List (List Char)
  | [] => [[]]
  | c :: cs =>
    if c = '\n' then [] :: splitNl cs
    else
      match splitNl cs with
      | h :: t => (c :: h) :: t
      | [] => [[c]]

/-- Python `"\n".join(lines)`. -/
def joinNl : List (List Char) → List Char
  | [] => []
  | [l] => l
  | l :: l₂ :: ls => l ++ '\n' :: joinNl (l₂ :: ls)

theorem splitNl_ne_nil (l : List Char) : splitNl l ≠ [] := by
  induction l with
  | nil => simp [splitNl]
  | cons c cs ih =>
    simp only [splitNl]
    split
    · simp
    · cases h : splitNl cs with
      | nil => simp
      | cons a t => simp

theorem length_splitNl (l : List Char) : (splitNl l).length = numLines l := by
  induction l with
  | nil => simp [splitNl, numLines, countNl]
  | cons c cs ih =>
    simp only [splitNl]
    split
    · rename_i hc
      subst hc
      simp only [List.length_cons, ih, numLines, countNl, List.count_cons_self]
    · rename_i hc
      cases h : splitNl cs with
      | nil => exact absurd h (splitNl_ne_nil cs)
      | cons a t =>
        have hlen := ih
        rw [h] at hlen
        simp only [List.length_cons] at hlen ⊢
        have hcount : countNl (c :: cs) = countNl cs := by
          simp [countNl, List.count_cons, hc]
        simp only [numLines, hcount] at *
        omega

/-! ## Chunker: `make_splitter` and `auto_chunk_splitter` (`chunker.py`) -/

/-- The separator choice handed to LangChain in `make_splitter`. -/
inductive SepChoice where
  /-- `RecursiveCharacterTextSplitter.from_language(language=Language.MARKDOWN, ...)` -/
  | markdownLanguage
  /-- `RecursiveCharacterTextSplitter(separators=..., ...)` -/
  | custom (seps : List (List Char))
deriving DecidableEq, Repr

/-- The configuration of the `RecursiveCharacterTextSplitter` that
`make_splitter` builds (the splitter itself is an external LangChain
object; what the repository chooses is exactly this data). -/
structure SplitterCfg where
  chunkSize : Nat
  chunkOverlap : Nat
  seps : SepChoice
deriving DecidableEq, Repr

/-- `make_splitter(chunk_size, chunk_overlap, separators)` from `chunker.py`. -/
def make_splitter (chunkSize : Nat) (chunkOverlap : Nat)
    (separators : Option (List (List Char))) : SplitterCfg :=
  match separators with
  | some seps => ⟨chunkSize, chunkOverlap, .custom seps⟩
  | none => ⟨chunkSize, chunkOverlap, .markdownLanguage⟩

/-- `auto_chunk_splitter(text)` from `chunker.py`: pick `(chunk_size,
chunk_overlap)` from the document's character length, then call
`make_splitter` with the default (markdown) separators. -/
def auto_chunk_splitter (text : List Char) : SplitterCfg :=
  let length := text.length
  let p : Nat × Nat :=
    if length < 5000 then (500, 50)
    else if length < 50000 then (1500, 200)
    else (3000, 400)
  make_splitter p.1 p.2 none

/-! ## Ordered dictionaries

Python dicts preserve insertion order: assigning to an existing key keeps
its position, assigning to a new key appends it.  `upsert` is that
assignment, with the new value computed from the old one (`f none` for a
fresh key, `f (some v)` for an existing one). -/

/-- Insertion-ordered dict assignment `d[k] = f(d.get(k))`. -/
def upsert {α β : Type} [DecidableEq α] (k : α) (f : Option β → β) :
    List (α × β) → List (α × β)
  | [] => [(k, f none)]
  | (k', v) :: rest =>
    if k' = k then (k', f (some v)) :: rest
    else (k', v) :: upsert k f rest

/-- Dict lookup `d.get(k)` on the association-list model. -/
def alookup {α β : Type} [DecidableEq α] (k : α) : List (α × β) → Option β
  | [] => none
  | (k', v) :: rest => if k' = k then some v else alookup k rest

theorem alookup_upsert_self {α β : Type} [DecidableEq α] (k : α)
    (f : Option β → β) (l : List (α × β)) :
    alookup k (upsert k f l) = some (f (alookup k l)) := by
  induction l with
  | nil => simp [upsert, alookup]
  | cons p rest ih =>
    obtain ⟨k', v⟩ := p
    by_cases h : k' = k
    · simp [upsert, alookup, h]
    · simp [upsert, alookup, h, ih]

theorem alookup_upsert_ne {α β : Type} [DecidableEq α] (k k₀ : α)
    (hne : k₀ ≠ k) (f : Option β → β) (l : List (α × β)) :
    alookup k₀ (upsert k f l) = alookup k₀ l := by
  have hne' : ¬(k = k₀) := fun h => hne h.symm
  induction l with
  | nil => simp [upsert, alookup, hne']
  | cons p rest ih =>
    obtain ⟨k', v⟩ := p
    by_cases h : k' = k
    · subst h
      have hk : ¬(k' = k₀) := fun h => hne h.symm
      simp [upsert, alookup, hk]
    · by_cases h₀ : k' = k₀
      · subst h₀
        simp [upsert, alookup, h]
      · simp [upsert, alookup, h, h₀, ih]

theorem mem_keys_upsert {α β : Type} [DecidableEq α] (k k₀ : α)
    (f : Option β → β) (l : List (α × β)) :
    k₀ ∈ (upsert k f l).map Prod.fst ↔ k₀ = k ∨ k₀ ∈ l.map Prod.fst := by
  induction l with
  | nil => simp [upsert, eq_comm]
  | cons p rest ih =>
    obtain ⟨k', v⟩ := p
    by_cases h : k' = k
    · subst h
      simp only [upsert, if_pos, List.map_cons, List.mem_cons]
      tauto
    · simp only [upsert, if_neg h, List.map_cons, List.mem_cons, ih]
      tauto

theorem nodup_keys_upsert {α β : Type} [DecidableEq α] (k : α)
    (f : Option β → β) (l : List (α × β))
    (h : (l.map Prod.fst).Nodup) : ((upsert k f l).map Prod.fst).Nodup := by
  induction l with
  | nil => simp [upsert]
  | cons p rest ih =>
    obtain ⟨k', v⟩ := p
    simp only [List.map_cons, List.nodup_cons] at h
    by_cases hk : k' = k
    · subst hk
      simp only [upsert, if_pos, List.map_cons, List.nodup_cons]
      exact ⟨h.1, h.2⟩
    · simp only [upsert, if_neg hk, List.map_cons, List.nodup_cons]
      refine ⟨?_, ih h.2⟩
      rw [mem_keys_upsert]
      rintro (h' | h')
      · exact hk h'
      · exact h.1 h'

theorem alookup_eq_some_of_mem {α β : Type} [DecidableEq α]
    (l : List (α × β)) (k : α) (v : β)
    (hnd : (l.map Prod.fst).Nodup) (hm : (k, v) ∈ l) :
    alookup k l = some v := by
  induction l with
  | nil => simp at hm
  | cons p rest ih =>
    obtain ⟨k', v'⟩ := p
    simp only [List.map_cons, List.nodup_cons] at hnd
    rcases List.mem_cons.mp hm with h | h
    · injection h with h1 h2
      subst h1
      subst h2
      simp [alookup]
    · by_cases hk : k' = k
      · subst hk
        exact absurd (List.mem_map.mpr ⟨(k', v), h, rfl⟩) hnd.1
      · simp [alookup, hk, ih hnd.2 h]

theorem mem_of_alookup_eq_some {α β : Type} [DecidableEq α]
    (l : List (α × β)) (k : α) (v : β) (h : alookup k l = some v) :
    (k, v) ∈ l := by
  induction l with
  | nil => simp [alookup] at h
  | cons p rest ih =>
    obtain ⟨k', v'⟩ := p
    by_cases hk : k' = k
    · subst hk
      simp only [alookup, if_pos, Option.some.injEq] at h
      subst h
      exact List.mem_cons_self ..
    · simp only [alookup, if_neg hk] at h
      exact List.mem_cons_of_mem _ (ih h)

/-! ## Stable descending sort by score

Python's `list.sort(key=lambda x: x[1], reverse=True)` is a stable sort
putting larger scores first.  `List.insertionSort` with the relation
"left score is at least right score" has exactly that observable
behaviour (it is stable and sorts descending). -/

/-- The descending-score ordering used by all the searchers. -/
def descAt {α : Type} (a b : α × ℚ) : Prop := b.2 ≤ a.2

instance {α : Type} : DecidableRel (descAt (α := α)) := fun a b => by
  unfold descAt
  infer_instance

instance {α : Type} : IsTotal (α × ℚ) descAt := ⟨fun a b => le_total b.2 a.2⟩

instance {α : Type} : IsTrans (α × ℚ) descAt := ⟨fun _ _ _ h1 h2 => le_trans h2 h1⟩

/-- `l.sort(key=lambda x: x[1], reverse=True)`. -/
def sortByScoreDesc {α : Type} (l : List (α × ℚ)) : List (α × ℚ) :=
  l.insertionSort descAt

theorem sortByScoreDesc_perm {α : Type} (l : List (α × ℚ)) :
    List.Perm (sortByScoreDesc l) l := List.perm_insertionSort _ l

theorem sortByScoreDesc_sorted {α : Type} (l : List (α × ℚ)) :
    List.Sorted descAt (sortByScoreDesc l) := List.sorted_insertionSort _ l

theorem sortByScoreDesc_of_sorted {α : Type} (l : List (α × ℚ))
    (h : List.Sorted descAt l) : sortByScoreDesc l = l :=
  List.Sorted.insertionSort_eq h

/-! ## Reciprocal Rank Fusion (`search/hybrid.py`)

The source keys its two dicts by the f-string `"{doc_id}:{chunk_index}"`.
The decimal rendering of `chunk_index` contains no `":"`, so that string
determines and is determined by the pair `(doc_id, chunk_index)`; the
embedding keys by the pair directly.  `scores` and `chunks` are two dicts
over the same keys, always written together, so they are modelled as one
ordered dict whose values are `(chunk, score)` pairs (`chunks[key]` always
holds the chunk object seen last, `scores[key]` the accumulated score). -/

/-- The fusion/dedup identity of a chunk: `(doc_id, chunk_index)`. -/
def rrfKey (c : ChunkMeta) : String × Nat := (c.docId, c.chunkIndex)

/-- The inner loop of `reciprocal_rank_fusion`: fold one ranked list into
the accumulated dict, `rank` being the (1-indexed) rank of the head. -/
def rrfAddList (k : ℤ) :
    List (ChunkMeta × ℚ) → Nat → List ((String × Nat) × (ChunkMeta × ℚ)) →
      List ((String × Nat) × (ChunkMeta × ℚ))
  | [], _, acc => acc
  | (c, _) :: rest, rank, acc =>
    rrfAddList k rest (rank + 1)
      (upsert (rrfKey c)
        (fun old =>
          match old with
          | none => (c, 1 / ((k : ℚ) + rank))
          | some (_, s) => (c, s + 1 / ((k : ℚ) + rank)))
        acc)

/-- `reciprocal_rank_fusion(ranked_lists, k=60, top_k=10)` from
`search/hybrid.py` (`k` defaults to `60`, `top_k` to `10`). -/
def reciprocal_rank_fusion (rankedLists : List (List (ChunkMeta × ℚ)))
    (k : ℤ) (topK : Nat) : List (ChunkMeta × ℚ) :=
  let scores := rankedLists.foldl (fun acc l => rrfAddList k l 1 acc) []
  (sortByScoreDesc (scores.map Prod.snd)).take topK

/-- Total RRF mass a key receives from one list whose head has rank
`rank` (sums over every occurrence, as the source's loop does). -/
def rrfContrib (k : ℤ) (key : String × Nat) :
    List (ChunkMeta × ℚ) → Nat → ℚ
  | [], _ => 0
  | (c, _) :: rest, rank =>
    (if rrfKey c = key then 1 / ((k : ℚ) + rank) else 0) +
      rrfContrib k key rest (rank + 1)

/-- The 1-indexed rank of the (first) entry with the given key. -/
def rankOf (key : String × Nat) : List (ChunkMeta × ℚ) → Option Nat
  | [] => none
  | (c, _) :: rest =>
    if rrfKey c = key then some 1 else (rankOf key rest).map (· + 1)

/-- The fused score promised by the spec: the sum, over each input list in
which the key appears, of `1 / (k + rank)` at its 1-indexed rank. -/
def specRRFScore (k : ℤ) (key : String × Nat)
    (lists : List (List (ChunkMeta × ℚ))) : ℚ :=
  (lists.map (fun L =>
    match rankOf key L with
    | some r => 1 / ((k : ℚ) + r)
    | none => 0)).sum

/-- Score stored in the accumulator dict for a key (0 when absent). -/
def scoreVal (acc : List ((String × Nat) × (ChunkMeta × ℚ)))
    (key : String × Nat) : ℚ :=
  match alookup key acc with
  | some (_, s) => s
  | none => 0

theorem scoreVal_upsert_rrf (k : ℤ) (c : ChunkMeta) (rank : Nat)
    (acc : List ((String × Nat) × (ChunkMeta × ℚ))) (key : String × Nat) :
    scoreVal (upsert (rrfKey c)
      (fun old =>
        match old with
        | none => (c, 1 / ((k : ℚ) + rank))
        | some (_, s) => (c, s + 1 / ((k : ℚ) + rank))) acc) key =
      scoreVal acc key + (if rrfKey c = key then 1 / ((k : ℚ) + rank) else 0) := by
  by_cases h : rrfKey c = key
  · subst h
    rw [scoreVal, alookup_upsert_self]
    cases ha : alookup (rrfKey c) acc with
    | none => simp [scoreVal, ha]
    | some p =>
      obtain ⟨c₀, s₀⟩ := p
      simp [scoreVal, ha]
  · rw [scoreVal, alookup_upsert_ne _ _ (fun hh => h hh.symm)]
    simp [scoreVal, h]

theorem scoreVal_rrfAddList (k : ℤ) (L : List (ChunkMeta × ℚ)) :
    ∀ (rank : Nat) (acc : List ((String × Nat) × (ChunkMeta × ℚ)))
      (key : String × Nat),
      scoreVal (rrfAddList k L rank acc) key =
        scoreVal acc key + rrfContrib k key L rank := by
  induction L with
  | nil => intro rank acc key; simp [rrfAddList, rrfContrib]
  | cons p rest ih =>
    intro rank acc key
    obtain ⟨c, s⟩ := p
    rw [rrfAddList, rrfContrib, ih, scoreVal_upsert_rrf]
    ring

theorem mem_keys_rrfAddList (k : ℤ) (L : List (ChunkMeta × ℚ)) :
    ∀ (rank : Nat) (acc : List ((String × Nat) × (ChunkMeta × ℚ)))
      (key : String × Nat),
      key ∈ (rrfAddList k L rank acc).map Prod.fst ↔
        key ∈ acc.map Prod.fst ∨ ∃ p ∈ L, rrfKey p.1 = key := by
  induction L with
  | nil => intro rank acc key; simp [rrfAddList]
  | cons p rest ih =>
    intro rank acc key
    obtain ⟨c, s⟩ := p
    rw [rrfAddList, ih]
    rw [mem_keys_upsert]
    simp only [List.mem_cons]
    constructor
    · rintro ((h | h) | ⟨q, hq, hk⟩)
      · exact Or.inr ⟨(c, s), Or.inl rfl, h.symm⟩
      · exact Or.inl h
      · exact Or.inr ⟨q, Or.inr hq, hk⟩
    · rintro (h | ⟨q, (hq | hq), hk⟩)
      · exact Or.inl (Or.inr h)
      · subst hq
        exact Or.inl (Or.inl hk.symm)
      · exact Or.inr ⟨q, hq, hk⟩

theorem nodup_keys_rrfAddList (k : ℤ) (L : List (ChunkMeta × ℚ)) :
    ∀ (rank : Nat) (acc : List ((String × Nat) × (ChunkMeta × ℚ))),
      (acc.map Prod.fst).Nodup → ((rrfAddList k L rank acc).map Prod.fst).Nodup := by
  induction L with
  | nil => intro rank acc h; simpa [rrfAddList] using h
  | cons p rest ih =>
    intro rank acc h
    obtain ⟨c, s⟩ := p
    rw [rrfAddList]
    exact ih _ _ (nodup_keys_upsert _ _ _ h)

theorem upsert_forall {α β : Type} [DecidableEq α] {P : α × β → Prop}
    (k : α) (f : Option β → β) (l : List (α × β))
    (h : ∀ p ∈ l, P p) (hf : ∀ o, P (k, f o)) :
    ∀ p ∈ upsert k f l, P p := by
  induction l with
  | nil =>
    intro p hp
    simp only [upsert, List.mem_singleton] at hp
    subst hp
    exact hf none
  | cons q rest ih =>
    obtain ⟨k', v⟩ := q
    by_cases hk : k' = k
    · subst hk
      intro p hp
      simp only [upsert, if_pos, List.mem_cons] at hp
      rcases hp with hp | hp
      · subst hp; exact hf _
      · exact h p (List.mem_cons_of_mem _ hp)
    · intro p hp
      simp only [upsert, if_neg hk, List.mem_cons] at hp
      rcases hp with hp | hp
      · subst hp; exact h _ (List.mem_cons_self ..)
      · exact ih (fun q hq => h q (List.mem_cons_of_mem _ hq)) p hp

theorem keyed_rrfAddList (k : ℤ) (L : List (ChunkMeta × ℚ)) :
    ∀ (rank : Nat) (acc : List ((String × Nat) × (ChunkMeta × ℚ))),
      (∀ p ∈ acc, p.1 = rrfKey p.2.1) →
      ∀ p ∈ rrfAddList k L rank acc, p.1 = rrfKey p.2.1 := by
  induction L with
  | nil => intro rank acc h; simpa [rrfAddList] using h
  | cons q rest ih =>
    intro rank acc h
    obtain ⟨c, s⟩ := q
    rw [rrfAddList]
    refine ih _ _ (upsert_forall _ _ _ h ?_)
    intro o
    cases o with
    | none => rfl
    | some p => obtain ⟨c₀, s₀⟩ := p; rfl

theorem rrfContrib_of_not_mem (k : ℤ) (key : String × Nat)
    (L : List (ChunkMeta × ℚ)) (h : ∀ p ∈ L, rrfKey p.1 ≠ key) :
    ∀ rank, rrfContrib k key L rank = 0 ∧ rankOf key L = none := by
  induction L with
  | nil => intro rank; simp [rrfContrib, rankOf]
  | cons p rest ih =>
    intro rank
    obtain ⟨c, s⟩ := p
    have hc : rrfKey c ≠ key := h (c, s) (List.mem_cons_self ..)
    have hrest := ih (fun q hq => h q (List.mem_cons_of_mem _ hq)) (rank + 1)
    rw [rrfContrib, rankOf]
    simp [hc, hrest.1, hrest.2]

theorem rrfContrib_eq_rankOf (k : ℤ) (key : String × Nat)
    (L : List (ChunkMeta × ℚ)) (hnd : (L.map (fun p => rrfKey p.1)).Nodup) :
    ∀ rank, rrfContrib k key L rank =
      match rankOf key L with
      | some r => 1 / ((k : ℚ) + rank + r - 1)
      | none => 0 := by
  induction L with
  | nil => intro rank; simp [rrfContrib, rankOf]
  | cons p rest ih =>
    intro rank
    obtain ⟨c, s⟩ := p
    simp only [List.map_cons, List.nodup_cons] at hnd
    by_cases hc : rrfKey c = key
    · subst hc
      have hnm : ∀ q ∈ rest, rrfKey q.1 ≠ rrfKey c := by
        intro q hq he
        exact hnd.1 (List.mem_map.mpr ⟨q, hq, he⟩)
      have h0 := rrfContrib_of_not_mem k (rrfKey c) rest hnm (rank + 1)
      rw [rrfContrib, rankOf]
      simp only [if_pos rfl, h0.1, add_zero]
      push_cast
      ring_nf
    · have hrest := ih hnd.2 (rank + 1)
      rw [rrfContrib, rankOf]
      simp only [if_neg hc, zero_add, hrest]
      cases hr : rankOf key rest with
      | none => simp
      | some r =>
        simp only [Option.map_some']
        push_cast
        ring_nf

theorem scoreVal_foldRRF (k : ℤ) (lists : List (List (ChunkMeta × ℚ))) :
    ∀ (acc : List ((String × Nat) × (ChunkMeta × ℚ))) (key : String × Nat),
      scoreVal (lists.foldl (fun acc l => rrfAddList k l 1 acc) acc) key =
        scoreVal acc key + (lists.map (fun L => rrfContrib k key L 1)).sum := by
  induction lists with
  | nil => intro acc key; simp
  | cons L rest ih =>
    intro acc key
    rw [List.foldl_cons, ih, scoreVal_rrfAddList]
    simp only [List.map_cons, List.sum_cons]
    ring

theorem mem_keys_foldRRF (k : ℤ) (lists : List (List (ChunkMeta × ℚ))) :
    ∀ (acc : List ((String × Nat) × (ChunkMeta × ℚ))) (key : String × Nat),
      key ∈ (lists.foldl (fun acc l => rrfAddList k l 1 acc) acc).map Prod.fst ↔
        key ∈ acc.map Prod.fst ∨ ∃ L ∈ lists, ∃ p ∈ L, rrfKey p.1 = key := by
  induction lists with
  | nil => intro acc key; simp
  | cons L rest ih =>
    intro acc key
    rw [List.foldl_cons, ih, mem_keys_rrfAddList]
    simp only [List.mem_cons]
    constructor
    · rintro ((h | h) | ⟨M, hM, q, hq, hk⟩)
      · exact Or.inl h
      · exact Or.inr ⟨L, Or.inl rfl, h⟩
      · exact Or.inr ⟨M, Or.inr hM, q, hq, hk⟩
    · rintro (h | ⟨M, (hM | hM), q, hq, hk⟩)
      · exact Or.inl (Or.inl h)
      · subst hM
        exact Or.inl (Or.inr ⟨q, hq, hk⟩)
      · exact Or.inr ⟨M, hM, q, hq, hk⟩

theorem nodup_keys_foldRRF (k : ℤ) (lists : List (List (ChunkMeta × ℚ))) :
    ∀ (acc : List ((String × Nat) × (ChunkMeta × ℚ))),
      (acc.map Prod.fst).Nodup →
      ((lists.foldl (fun acc l => rrfAddList k l 1 acc) acc).map Prod.fst).Nodup := by
  induction lists with
  | nil => intro acc h; simpa using h
  | cons L rest ih =>
    intro acc h
    rw [List.foldl_cons]
    exact ih _ (nodup_keys_rrfAddList _ _ _ _ h)

theorem keyed_foldRRF (k : ℤ) (lists : List (List (ChunkMeta × ℚ))) :
    ∀ (acc : List ((String × Nat) × (ChunkMeta × ℚ))),
      (∀ p ∈ acc, p.1 = rrfKey p.2.1) →
      ∀ p ∈ lists.foldl (fun acc l => rrfAddList k l 1 acc) acc, p.1 = rrfKey p.2.1 := by
  induction lists with
  | nil => intro acc h; simpa using h
  | cons L rest ih =>
    intro acc h
    rw [List.foldl_cons]
    exact ih _ (keyed_rrfAddList _ _ _ _ h)

/-- All fusion keys occurring in the input lists, in order. -/
def allRRFKeys (lists : List (List (ChunkMeta × ℚ))) : List (String × Nat) :=
  lists.foldr (fun L acc => L.map (fun p => rrfKey p.1) ++ acc) []

theorem mem_allRRFKeys (lists : List (List (ChunkMeta × ℚ))) (key : String × Nat) :
    key ∈ allRRFKeys lists ↔ ∃ L ∈ lists, ∃ p ∈ L, rrfKey p.1 = key := by
  induction lists with
  | nil => simp [allRRFKeys]
  | cons L rest ih =>
    simp only [allRRFKeys, List.foldr_cons, List.mem_append, List.mem_map] at *
    rw [ih]
    constructor
    · rintro (⟨p, hp, hk⟩ | ⟨M, hM, q, hq, hk⟩)
      · exact ⟨L, List.mem_cons_self .., p, hp, hk⟩
      · exact ⟨M, List.mem_cons_of_mem _ hM, q, hq, hk⟩
    · rintro ⟨M, hM, q, hq, hk⟩
      rcases List.mem_cons.mp hM with h | h
      · subst h
        exact Or.inl ⟨q, hq, hk⟩
      · exact Or.inr ⟨M, h, q, hq, hk⟩

theorem contribOne_eq_spec (k : ℤ) (key : String × Nat)
    (lists : List (List (ChunkMeta × ℚ)))
    (hnd : ∀ L ∈ lists, (L.map (fun p => rrfKey p.1)).Nodup) :
    (lists.map (fun L => rrfContrib k key L 1)).sum = specRRFScore k key lists := by
  unfold specRRFScore
  congr 1
  refine List.map_congr_left ?_
  intro L hL
  rw [rrfContrib_eq_rankOf k key L (hnd L hL) 1]
  cases h : rankOf key L with
  | none => simp
  | some r =>
    simp only []
    push_cast
    ring_nf

theorem foldRRF_all_nil (k : ℤ) (lists : List (List (ChunkMeta × ℚ)))
    (h : ∀ L ∈ lists, L = []) :
    ∀ acc, lists.foldl (fun acc l => rrfAddList k l 1 acc) acc = acc := by
  induction lists with
  | nil => intro acc; rfl
  | cons L rest ih =>
    intro acc
    have hL : L = [] := h L (List.mem_cons_self ..)
    subst hL
    rw [List.foldl_cons]
    exact ih (fun M hM => h M (List.mem_cons_of_mem _ hM)) acc

/-- **C1.** For every collection of input ranked lists (each list naming any
`(doc_id, chunk_index)` key at most once, so that "the chunk's rank in that
list" is well defined), `reciprocal_rank_fusion` assigns each distinct chunk
key a fused score equal to the sum, over each input list in which it
appears, of `1 / (k + rank)` with `rank` the 1-indexed position in that
list (`k` defaults to 60 at the call sites); the returned list carries
pairwise-distinct keys, is sorted by fused score descending, and has length
`min top_k (number of distinct keys)` — i.e. the distinct chunks truncated
to `top_k`; fusing no lists, or only empty lists, yields `[]`. -/
theorem C1_reciprocal_rank_fusion (rankedLists : List (List (ChunkMeta × ℚ)))
    (k : ℤ) (topK : Nat)
    (hnd : ∀ L ∈ rankedLists, (L.map (fun p => rrfKey p.1)).Nodup) :
    (∀ p ∈ reciprocal_rank_fusion rankedLists k topK,
        p.2 = specRRFScore k (rrfKey p.1) rankedLists ∧
        ∃ L ∈ rankedLists, ∃ q ∈ L, rrfKey q.1 = rrfKey p.1) ∧
    ((reciprocal_rank_fusion rankedLists k topK).map (fun p => rrfKey p.1)).Nodup ∧
    List.Sorted descAt (reciprocal_rank_fusion rankedLists k topK) ∧
    (reciprocal_rank_fusion rankedLists k topK).length =
      min topK (allRRFKeys rankedLists).dedup.length ∧
    reciprocal_rank_fusion [] k topK = [] ∧
    ((∀ L ∈ rankedLists, L = []) → reciprocal_rank_fusion rankedLists k topK = []) := by
  have hout : reciprocal_rank_fusion rankedLists k topK =
      (sortByScoreDesc ((rankedLists.foldl (fun a l => rrfAddList k l 1 a) []).map
        Prod.snd)).take topK := rfl
  set acc := rankedLists.foldl (fun a l => rrfAddList k l 1 a) [] with hacc
  have hkeyed : ∀ p ∈ acc, p.1 = rrfKey p.2.1 :=
    keyed_foldRRF k rankedLists [] (by simp)
  have hnodk : (acc.map Prod.fst).Nodup :=
    nodup_keys_foldRRF k rankedLists [] (by simp)
  have hmemk : ∀ key, key ∈ acc.map Prod.fst ↔
      ∃ L ∈ rankedLists, ∃ p ∈ L, rrfKey p.1 = key := by
    intro key
    rw [hacc, mem_keys_foldRRF]
    simp
  have hscore : ∀ key, scoreVal acc key = specRRFScore k key rankedLists := by
    intro key
    rw [hacc, scoreVal_foldRRF, contribOne_eq_spec k key rankedLists hnd]
    simp [scoreVal, alookup]
  have hmapkeys : (acc.map Prod.snd).map (fun p => rrfKey p.1) = acc.map Prod.fst := by
    rw [List.map_map]
    exact List.map_congr_left (fun p hp => ((hkeyed p hp).symm : rrfKey p.2.1 = p.1))
  have hperm : List.Perm (sortByScoreDesc (acc.map Prod.snd)) (acc.map Prod.snd) :=
    sortByScoreDesc_perm _
  refine ⟨?_, ?_, ?_, ?_, ?_, ?_⟩
  · intro p hp
    rw [hout] at hp
    have hp₁ : p ∈ acc.map Prod.snd := hperm.subset (List.mem_of_mem_take hp)
    obtain ⟨e, he, hpe⟩ := List.mem_map.mp hp₁
    obtain ⟨key, c, s⟩ := e
    have hkey : key = rrfKey c := hkeyed _ he
    subst hkey
    subst hpe
    have hlook : alookup (rrfKey c) acc = some (c, s) :=
      alookup_eq_some_of_mem _ _ _ hnodk he
    have hs : scoreVal acc (rrfKey c) = s := by rw [scoreVal, hlook]
    constructor
    · have hsp := hscore (rrfKey c)
      rw [hs] at hsp
      exact hsp
    · have hmem : rrfKey c ∈ acc.map Prod.fst :=
        List.mem_map.mpr ⟨(rrfKey c, (c, s)), he, rfl⟩
      exact (hmemk _).mp hmem
  · rw [hout]
    refine List.Nodup.sublist (List.Sublist.map _ (List.take_sublist _ _)) ?_
    refine ((hperm.map (fun p => rrfKey p.1)).nodup_iff).mpr ?_
    rw [hmapkeys]
    exact hnodk
  · rw [hout]
    exact List.Pairwise.sublist (List.take_sublist _ _) (sortByScoreDesc_sorted _)
  · rw [hout, List.length_take, hperm.length_eq, List.length_map]
    congr 1
    have hpermkeys : List.Perm (acc.map Prod.fst) (allRRFKeys rankedLists).dedup :=
      (List.perm_ext_iff_of_nodup hnodk (List.nodup_dedup _)).mpr
        (fun a => by rw [hmemk, List.mem_dedup, mem_allRRFKeys])
    have h1 : acc.length = (acc.map Prod.fst).length := (List.length_map _ _).symm
    rw [h1, hpermkeys.length_eq]
  · show reciprocal_rank_fusion [] k topK = []
    simp [reciprocal_rank_fusion, sortByScoreDesc, List.insertionSort]
  · intro hall
    rw [hout, hacc, foldRRF_all_nil k rankedLists hall]
    simp [sortByScoreDesc, List.insertionSort]

/-- Witness input for the fusion theorems: two ranked lists with an
overlapping chunk. -/
def rrfWitnessLists : List (List (ChunkMeta × ℚ)) :=
  [[(⟨"d1", 0, 1, 2, ['a']⟩, 9 / 10), (⟨"d1", 1, 3, 4, ['b']⟩, 1 / 2)],
   [(⟨"d2", 0, 1, 2, ['c']⟩, 4 / 5), (⟨"d1", 0, 1, 2, ['a']⟩, 7 / 10)]]

theorem C1_reciprocal_rank_fusion_witness :
    (∀ L ∈ rrfWitnessLists, (L.map (fun p => rrfKey p.1)).Nodup) ∧
    ((∀ p ∈ reciprocal_rank_fusion rrfWitnessLists 60 10,
        p.2 = specRRFScore 60 (rrfKey p.1) rrfWitnessLists ∧
        ∃ L ∈ rrfWitnessLists, ∃ q ∈ L, rrfKey q.1 = rrfKey p.1) ∧
      ((reciprocal_rank_fusion rrfWitnessLists 60 10).map (fun p => rrfKey p.1)).Nodup ∧
      List.Sorted descAt (reciprocal_rank_fusion rrfWitnessLists 60 10) ∧
      (reciprocal_rank_fusion rrfWitnessLists 60 10).length =
        min 10 (allRRFKeys rrfWitnessLists).dedup.length ∧
      reciprocal_rank_fusion [] 60 10 = [] ∧
      ((∀ L ∈ rrfWitnessLists, L = []) →
        reciprocal_rank_fusion rrfWitnessLists 60 10 = [])) :=
  ⟨by decide, C1_reciprocal_rank_fusion rrfWitnessLists 60 10 (by decide)⟩

/-- The list the spec says single-list fusion must return: the chunks of
`L` in order, the one at 1-indexed rank `rank` scored `1 / (k + rank)`. -/
def rrfSingle (k : ℤ) : Nat → List (ChunkMeta × ℚ) → List (ChunkMeta × ℚ)
  | _, [] => []
  | rank, (c, _) :: rest => (c, 1 / ((k : ℚ) + rank)) :: rrfSingle k (rank + 1) rest

/-- `rrfSingle` together with its dict keys. -/
def rrfSingleKeyed (k : ℤ) :
    Nat → List (ChunkMeta × ℚ) → List ((String × Nat) × (ChunkMeta × ℚ))
  | _, [] => []
  | rank, (c, _) :: rest =>
    (rrfKey c, (c, 1 / ((k : ℚ) + rank))) :: rrfSingleKeyed k (rank + 1) rest

theorem upsert_append_fresh {α β : Type} [DecidableEq α] (k : α)
    (f : Option β → β) (l : List (α × β)) (h : k ∉ l.map Prod.fst) :
    upsert k f l = l ++ [(k, f none)] := by
  induction l with
  | nil => simp [upsert]
  | cons p rest ih =>
    obtain ⟨k', v⟩ := p
    simp only [List.map_cons, List.mem_cons] at h
    push_neg at h
    have hk : ¬(k' = k) := fun hh => h.1 hh.symm
    simp [upsert, hk, ih h.2]

theorem rrfAddList_fresh (k : ℤ) (L : List (ChunkMeta × ℚ))
    (hnd : (L.map (fun p => rrfKey p.1)).Nodup) :
    ∀ (rank : Nat) (acc : List ((String × Nat) × (ChunkMeta × ℚ))),
      (∀ p ∈ L, rrfKey p.1 ∉ acc.map Prod.fst) →
      rrfAddList k L rank acc = acc ++ rrfSingleKeyed k rank L := by
  induction L with
  | nil => intro rank acc _; simp [rrfAddList, rrfSingleKeyed]
  | cons p rest ih =>
    intro rank acc hfresh
    obtain ⟨c, s⟩ := p
    simp only [List.map_cons, List.nodup_cons] at hnd
    rw [rrfAddList, upsert_append_fresh _ _ _ (hfresh (c, s) (List.mem_cons_self ..))]
    rw [ih hnd.2 (rank + 1) _ ?_]
    · rw [rrfSingleKeyed, List.append_assoc]
      rfl
    · intro q hq
      rw [List.map_append, List.mem_append]
      push_neg
      refine ⟨hfresh q (List.mem_cons_of_mem _ hq), ?_⟩
      simp only [List.map_cons, List.map_nil, List.mem_singleton]
      intro he
      exact hnd.1 (List.mem_map.mpr ⟨q, hq, he⟩)

theorem map_snd_rrfSingleKeyed (k : ℤ) :
    ∀ (rank : Nat) (L : List (ChunkMeta × ℚ)),
      (rrfSingleKeyed k rank L).map Prod.snd = rrfSingle k rank L := by
  intro rank L
  induction L generalizing rank with
  | nil => simp [rrfSingleKeyed, rrfSingle]
  | cons p rest ih =>
    obtain ⟨c, s⟩ := p
    simp [rrfSingleKeyed, rrfSingle, ih]

theorem map_fst_rrfSingle (k : ℤ) :
    ∀ (rank : Nat) (L : List (ChunkMeta × ℚ)),
      (rrfSingle k rank L).map Prod.fst = L.map Prod.fst := by
  intro rank L
  induction L generalizing rank with
  | nil => simp [rrfSingle]
  | cons p rest ih =>
    obtain ⟨c, s⟩ := p
    simp [rrfSingle, ih]

theorem length_rrfSingle (k : ℤ) :
    ∀ (rank : Nat) (L : List (ChunkMeta × ℚ)),
      (rrfSingle k rank L).length = L.length := by
  intro rank L
  induction L generalizing rank with
  | nil => simp [rrfSingle]
  | cons p rest ih =>
    obtain ⟨c, s⟩ := p
    simp [rrfSingle, ih]

theorem rrfSingle_strict_chain (k : ℤ) (hk : 0 ≤ k)
    (L : List (ChunkMeta × ℚ)) :
    ∀ (rank : Nat), 1 ≤ rank →
      List.Chain' (fun a b : ChunkMeta × ℚ => b.2 < a.2) (rrfSingle k rank L) := by
  induction L with
  | nil => intro rank _; simp [rrfSingle]
  | cons p rest ih =>
    intro rank hrank
    obtain ⟨c, s⟩ := p
    rw [rrfSingle]
    rw [List.chain'_cons']
    refine ⟨?_, ih (rank + 1) (by omega)⟩
    intro y hy
    cases rest with
    | nil => simp [rrfSingle] at hy
    | cons q rest' =>
      obtain ⟨c', s'⟩ := q
      simp only [rrfSingle, List.head?_cons, Option.mem_def, Option.some.injEq] at hy
      subst hy
      have hpos : (0 : ℚ) < (k : ℚ) + rank := by
        have h1 : (1 : ℚ) ≤ (rank : ℚ) := by exact_mod_cast hrank
        have h2 : (0 : ℚ) ≤ (k : ℚ) := by exact_mod_cast hk
        linarith
      have hlt : (k : ℚ) + rank < (k : ℚ) + (rank + 1 : Nat) := by
        push_cast
        linarith
      exact one_div_lt_one_div_of_lt hpos hlt

instance {α : Type} : IsTrans (α × ℚ) (fun a b => b.2 < a.2) :=
  ⟨fun _ _ _ h1 h2 => lt_trans h2 h1⟩

/-- **C10.** Fusing a single ranked list preserves its order: when the
list's `(doc_id, chunk_index)` keys are pairwise distinct and `k ≥ 0`,
`reciprocal_rank_fusion [L] k top_k` is exactly the first
`min(top_k, |L|)` chunks of `L` in their original order, the chunk of
1-indexed rank `rank` carrying the strictly decreasing fused score
`1 / (k + rank)`. -/
theorem C10_rrf_single_list (L : List (ChunkMeta × ℚ)) (k : ℤ) (topK : Nat)
    (hk : 0 ≤ k) (hnd : (L.map (fun p => rrfKey p.1)).Nodup) :
    reciprocal_rank_fusion [L] k topK = (rrfSingle k 1 L).take topK ∧
    (rrfSingle k 1 L).map Prod.fst = L.map Prod.fst ∧
    (rrfSingle k 1 L).length = L.length ∧
    List.Chain' (fun a b : ChunkMeta × ℚ => b.2 < a.2) (rrfSingle k 1 L) := by
  have hchain := rrfSingle_strict_chain k hk L 1 le_rfl
  refine ⟨?_, map_fst_rrfSingle k 1 L, length_rrfSingle k 1 L, hchain⟩
  have hacc : [L].foldl (fun a l => rrfAddList k l 1 a) [] = rrfSingleKeyed k 1 L := by
    rw [List.foldl_cons, List.foldl_nil]
    rw [rrfAddList_fresh k L hnd 1 [] (by simp)]
    rfl
  have hsorted : List.Sorted descAt (rrfSingle k 1 L) := by
    have := List.chain'_iff_pairwise.mp hchain
    exact this.imp (fun h => le_of_lt h)
  show (sortByScoreDesc (([L].foldl (fun a l => rrfAddList k l 1 a) []).map
      Prod.snd)).take topK = (rrfSingle k 1 L).take topK
  rw [hacc, map_snd_rrfSingleKeyed, sortByScoreDesc_of_sorted _ hsorted]

theorem C10_rrf_single_list_witness :
    (0 : ℤ) ≤ 60 ∧
    (((rrfWitnessLists.get! 0).map (fun p => rrfKey p.1)).Nodup ∧
      (reciprocal_rank_fusion [rrfWitnessLists.get! 0] 60 5 =
        (rrfSingle 60 1 (rrfWitnessLists.get! 0)).take 5 ∧
      (rrfSingle 60 1 (rrfWitnessLists.get! 0)).map Prod.fst =
        (rrfWitnessLists.get! 0).map Prod.fst ∧
      (rrfSingle 60 1 (rrfWitnessLists.get! 0)).length =
        (rrfWitnessLists.get! 0).length ∧
      List.Chain' (fun a b : ChunkMeta × ℚ => b.2 < a.2)
        (rrfSingle 60 1 (rrfWitnessLists.get! 0)))) :=
  ⟨by decide, by decide,
    C10_rrf_single_list (rrfWitnessLists.get! 0) 60 5 (by decide) (by decide)⟩

/-- **C7 counterexample.** A text of exactly 50,000 characters lies in the
claim's medium band "5,000–50,000" and so should get `(1500, 200)`, but
`auto_chunk_splitter` tests `length < 50_000` and gives it the large-band
parameters `(3000, 400)`. -/
theorem C7_auto_chunk_splitter_counterexample :
    5000 ≤ (List.replicate 50000 'a').length ∧
    (List.replicate 50000 'a').length ≤ 50000 ∧
    auto_chunk_splitter (List.replicate 50000 'a') = make_splitter 3000 400 none ∧
    auto_chunk_splitter (List.replicate 50000 'a') ≠ make_splitter 1500 200 none := by
  have h : auto_chunk_splitter (List.replicate 50000 'a') = make_splitter 3000 400 none := by
    simp only [auto_chunk_splitter, List.length_replicate]
    norm_num
  refine ⟨?_, ?_, h, ?_⟩
  · rw [List.length_replicate]
    norm_num
  · rw [List.length_replicate]
  · rw [h]
    simp [make_splitter]

/-- **C7 (amended).** The adaptive policy selects `(500, 50)` below 5,000
characters, `(1500, 200)` for lengths in `[5000, 50000)`, and
`(3000, 400)` for lengths of at least 50,000 (the band boundary 50,000
itself belongs to the large band, not the medium one), always with the
default markdown separators. -/
theorem C7_auto_chunk_splitter_bands (text : List Char) :
    (text.length < 5000 → auto_chunk_splitter text = make_splitter 500 50 none) ∧
    (5000 ≤ text.length → text.length < 50000 →
      auto_chunk_splitter text = make_splitter 1500 200 none) ∧
    (50000 ≤ text.length → auto_chunk_splitter text = make_splitter 3000 400 none) := by
  refine ⟨?_, ?_, ?_⟩
  · intro h
    simp only [auto_chunk_splitter]
    split_ifs with h1 h2 <;> first | rfl | omega
  · intro h1 h2
    simp only [auto_chunk_splitter]
    split_ifs with ha hb <;> first | rfl | omega
  · intro h
    simp only [auto_chunk_splitter]
    split_ifs with ha hb <;> first | rfl | omega

theorem C7_auto_chunk_splitter_bands_witness :
    ((List.replicate 3 'a').length < 5000 ∧
      auto_chunk_splitter (List.replicate 3 'a') = make_splitter 500 50 none) ∧
    (5000 ≤ (List.replicate 7000 'a').length ∧
      (List.replicate 7000 'a').length < 50000 ∧
      auto_chunk_splitter (List.replicate 7000 'a') = make_splitter 1500 200 none) ∧
    (50000 ≤ (List.replicate 60000 'a').length ∧
      auto_chunk_splitter (List.replicate 60000 'a') = make_splitter 3000 400 none) :=
  ⟨⟨by rw [List.length_replicate]; norm_num,
    (C7_auto_chunk_splitter_bands (List.replicate 3 'a')).1
      (by rw [List.length_replicate]; norm_num)⟩,
   ⟨by rw [List.length_replicate]; norm_num,
    by rw [List.length_replicate]; norm_num,
    (C7_auto_chunk_splitter_bands (List.replicate 7000 'a')).2.1
      (by rw [List.length_replicate]; norm_num)
      (by rw [List.length_replicate]; norm_num)⟩,
   ⟨by rw [List.length_replicate]; norm_num,
    (C7_auto_chunk_splitter_bands (List.replicate 60000 'a')).2.2
      (by rw [List.length_replicate]; norm_num)⟩⟩

/-! ## `chunk_markdown` (`chunker.py`)

`chunk_markdown` receives the pieces produced by the external splitter's
`split_text(markdown)` (an arbitrary `TextSplitter` can be injected), so
the embedding takes that piece list as a parameter.  The bookkeeping loop
is translated statement by statement: `markdown.find(chunk_text,
search_start)` is `findFrom` (`none` models `-1`, and the `-1` fallback is
`Option.getD search_start`). -/

/-- Python `markdown.find(piece, s)`: the least `i ≥ s` at which `piece`
occurs in `md` (`none` when there is no such occurrence, modelling `-1`).
Like Python's `str.find`, an empty piece is found at `s` itself as long as
`s ≤ len(md)`. -/
def findFrom (md piece : List Char) (s : Nat) : Option Nat :=
  (List.range' s (md.length + 1 - s)).find? (fun i => piece.isPrefixOf (md.drop i))

/-- The chunk-emission loop of `chunk_markdown`: `i` is the next
`chunk_index`, `searchStart` the running search cursor. -/
def chunkMarkdownGo (md : List Char) (docId : String) :
    Nat → Nat → List (List Char) → List ChunkMeta
  | _, _, [] => []
  | i, searchStart, piece :: rest =>
    let startChar := (findFrom md piece searchStart).getD searchStart
    let startLine := countNl (md.take startChar) + 1
    ⟨docId, i, startLine, startLine + countNl piece, piece⟩ ::
      chunkMarkdownGo md docId (i + 1) (startChar + 1) rest

/-- `chunk_markdown(markdown, doc_id, text_splitter)` from `chunker.py`,
with `pieces = text_splitter.split_text(markdown)` supplied by the
(external) splitter. -/
def chunk_markdown (md : List Char) (docId : String)
    (pieces : List (List Char)) : List ChunkMeta :=
  if md = [] then [] else chunkMarkdownGo md docId 0 0 pieces

/-- A splitter output is a *faithful split* of `md` when, tracking the
same search cursor `chunk_markdown` uses, every piece is found at an
offset not beyond the previous piece's end (the first at offset 0), and
the last piece ends exactly at the end of the text.  `s` is the cursor,
`e` the end offset of the previous piece. -/
def faithfulFromB (md : List Char) : Nat → Nat → List (List Char) → Bool
  | _, e, [] => e == md.length
  | s, e, piece :: rest =>
    match findFrom md piece s with
    | none => false
    | some p => decide (p ≤ e) && faithfulFromB md (p + 1) (p + piece.length) rest

theorem findFrom_some (md piece : List Char) (s p : Nat)
    (h : findFrom md piece s = some p) :
    s ≤ p ∧ p ≤ md.length ∧ piece <+: md.drop p := by
  have hmem := List.mem_of_find?_eq_some h
  have hpred := List.find?_some h
  rw [List.mem_range'_1] at hmem
  refine ⟨hmem.1, by omega, ?_⟩
  exact List.isPrefixOf_iff_prefix.mp hpred

theorem take_append_of_prefix_drop (md piece : List Char) (p : Nat)
    (hp : p ≤ md.length) (hpre : piece <+: md.drop p) :
    md.take (p + piece.length) = md.take p ++ piece := by
  obtain ⟨t, ht⟩ := hpre
  rw [List.take_add, ← ht, List.take_left]

theorem countNl_take_prefix_drop (md piece : List Char) (p : Nat)
    (hp : p ≤ md.length) (hpre : piece <+: md.drop p) :
    countNl (md.take (p + piece.length)) = countNl (md.take p) + countNl piece := by
  rw [take_append_of_prefix_drop md piece p hp hpre, countNl, countNl, countNl,
    List.count_append]

theorem countNl_take_mono (md : List Char) (p q : Nat) (h : p ≤ q) :
    countNl (md.take p) ≤ countNl (md.take q) := by
  have he : md.take p = (md.take q).take p := by
    rw [List.take_take, min_eq_left h]
  rw [he, countNl, countNl]
  exact (List.take_sublist ..).count_le _

theorem chunkMarkdownGo_indices (md : List Char) (d : String)
    (pieces : List (List Char)) :
    ∀ (i s : Nat),
      (chunkMarkdownGo md d i s pieces).map (fun c => c.chunkIndex) =
        List.range' i pieces.length := by
  induction pieces with
  | nil => intro i s; simp [chunkMarkdownGo]
  | cons piece rest ih =>
    intro i s
    rw [chunkMarkdownGo]
    simp only [List.map_cons, List.length_cons, List.range'_succ]
    rw [ih]

theorem chunkMarkdownGo_line_bounds (md : List Char) (d : String)
    (pieces : List (List Char)) :
    ∀ (i s : Nat), ∀ c ∈ chunkMarkdownGo md d i s pieces,
      1 ≤ c.startLine ∧ c.startLine ≤ c.endLine := by
  induction pieces with
  | nil => intro i s c hc; simp [chunkMarkdownGo] at hc
  | cons piece rest ih =>
    intro i s c hc
    rw [chunkMarkdownGo] at hc
    rcases List.mem_cons.mp hc with h | h
    · subst h
      constructor
      · simp
      · simp only []
        omega
    · exact ih _ _ c h

theorem chunkMarkdownGo_cover (md : List Char) (d : String)
    (pieces : List (List Char)) :
    ∀ (s e i : Nat), faithfulFromB md s e pieces = true →
      ∀ l : Nat, countNl (md.take e) + 1 < l → l ≤ numLines md →
        ∃ c ∈ chunkMarkdownGo md d i s pieces, c.startLine ≤ l ∧ l ≤ c.endLine := by
  induction pieces with
  | nil =>
    intro s e i hf l hl1 hl2
    rw [faithfulFromB, beq_iff_eq] at hf
    subst hf
    rw [List.take_length] at hl1
    exact absurd hl2 (by unfold numLines; omega)
  | cons piece rest ih =>
    intro s e i hf l hl1 hl2
    rw [faithfulFromB] at hf
    cases hfind : findFrom md piece s with
    | none => rw [hfind] at hf; exact absurd hf (by simp)
    | some p =>
      rw [hfind] at hf
      rw [Bool.and_eq_true, decide_eq_true_eq] at hf
      obtain ⟨hpe, hrest⟩ := hf
      obtain ⟨hsp, hplen, hpre⟩ := findFrom_some md piece s p hfind
      have hend : countNl (md.take (p + piece.length)) =
          countNl (md.take p) + countNl piece :=
        countNl_take_prefix_drop md piece p hplen hpre
      rw [chunkMarkdownGo]
      simp only [hfind, Option.getD_some]
      by_cases hcase : l ≤ countNl (md.take p) + 1 + countNl piece
      · refine ⟨_, List.mem_cons_self .., ?_, hcase⟩
        show countNl (md.take p) + 1 ≤ l
        have hmono : countNl (md.take p) ≤ countNl (md.take e) :=
          countNl_take_mono md p e hpe
        omega
      · obtain ⟨c, hc, hc1, hc2⟩ :=
          ih (p + 1) (p + piece.length) (i + 1) hrest l (by omega) hl2
        exact ⟨c, List.mem_cons_of_mem _ hc, hc1, hc2⟩

/-- **C3 counterexample.** `chunk_markdown` is parametric in the injected
splitter, and the claim fails for non-faithful splitter outputs: on the
non-empty input `"a\nb"` a splitter returning the single piece `"b"`
(dropping line 1, as e.g. whitespace-stripping splitters do) yields one
chunk with `start_line = 2 ≠ 1`, and line 1 of `[1, num_lines] = [1, 2]`
is covered by no emitted chunk. -/
theorem C3_chunk_markdown_counterexample :
    (['a', '\n', 'b'] : List Char) ≠ [] ∧
    chunk_markdown ['a', '\n', 'b'] "d" [['b']] =
      [⟨"d", 0, 2, 2, ['b']⟩] ∧
    ¬((chunk_markdown ['a', '\n', 'b'] "d" [['b']]).head?.map
        (fun c => c.startLine) = some 1) ∧
    ¬(∃ c ∈ chunk_markdown ['a', '\n', 'b'] "d" [['b']],
        c.startLine ≤ 1 ∧ 1 ≤ c.endLine) := by
  refine ⟨by simp, by decide, by decide, ?_⟩
  decide

/-- **C3 (amended).** For every non-empty input and every splitter output:
the `chunk_index` values are exactly `0..n-1` in emission order and every
chunk has `end_line ≥ start_line ≥ 1`; when moreover the splitter output
is a faithful split of the input (each piece found at an offset no beyond
the previous piece's end, the first at offset 0, the last ending at the
end of the text — `faithfulFromB`), the first chunk's `start_line` is 1
and the emitted line ranges cover every line of `[1, num_lines]` with no
gaps. -/
theorem C3_chunk_markdown_guarantees (md : List Char) (d : String)
    (pieces : List (List Char)) (hmd : md ≠ []) :
    ((chunk_markdown md d pieces).map (fun c => c.chunkIndex) =
      List.range (chunk_markdown md d pieces).length) ∧
    (∀ c ∈ chunk_markdown md d pieces, 1 ≤ c.startLine ∧ c.startLine ≤ c.endLine) ∧
    (faithfulFromB md 0 0 pieces = true →
      ((chunk_markdown md d pieces).head?.map (fun c => c.startLine) = some 1) ∧
      (∀ l : Nat, 1 ≤ l → l ≤ numLines md →
        ∃ c ∈ chunk_markdown md d pieces, c.startLine ≤ l ∧ l ≤ c.endLine)) := by
  have hck : chunk_markdown md d pieces = chunkMarkdownGo md d 0 0 pieces := by
    rw [chunk_markdown, if_neg hmd]
  refine ⟨?_, ?_, ?_⟩
  · rw [hck, List.range_eq_range']
    have hlen : (chunkMarkdownGo md d 0 0 pieces).length = pieces.length := by
      have := chunkMarkdownGo_indices md d pieces 0 0
      have hl := congrArg List.length this
      simpa using hl
    rw [hlen]
    exact chunkMarkdownGo_indices md d pieces 0 0
  · rw [hck]
    exact chunkMarkdownGo_line_bounds md d pieces 0 0
  · intro hf
    constructor
    · cases pieces with
      | nil =>
        rw [faithfulFromB, beq_iff_eq] at hf
        exact absurd (List.eq_nil_of_length_eq_zero hf.symm) hmd
      | cons piece rest =>
        rw [faithfulFromB] at hf
        cases hfind : findFrom md piece 0 with
        | none => rw [hfind] at hf; exact absurd hf (by simp)
        | some p =>
          rw [hfind] at hf
          rw [Bool.and_eq_true, decide_eq_true_eq] at hf
          have hp0 : p = 0 := by omega
          subst hp0
          rw [hck, chunkMarkdownGo]
          simp [hfind, countNl]
    · intro l hl1 hl2
      rcases Nat.lt_or_ge 1 l with hl | hl
      · rw [hck]
        refine chunkMarkdownGo_cover md d pieces 0 0 0 hf l ?_ hl2
        simpa [countNl] using hl
      · have hl1' : l = 1 := by omega
        subst hl1'
        cases pieces with
        | nil =>
          rw [faithfulFromB, beq_iff_eq] at hf
          exact absurd (List.eq_nil_of_length_eq_zero hf.symm) hmd
        | cons piece rest =>
          rw [faithfulFromB] at hf
          cases hfind : findFrom md piece 0 with
          | none => rw [hfind] at hf; exact absurd hf (by simp)
          | some p =>
            rw [hfind] at hf
            rw [Bool.and_eq_true, decide_eq_true_eq] at hf
            have hp0 : p = 0 := by omega
            subst hp0
            rw [hck, chunkMarkdownGo]
            simp only [hfind, Option.getD_some]
            refine ⟨_, List.mem_cons_self .., ?_, ?_⟩
            · show countNl (md.take 0) + 1 ≤ 1
              simp [countNl]
            · show 1 ≤ countNl (md.take 0) + 1 + countNl piece
              omega

theorem C3_chunk_markdown_guarantees_witness :
    (['a', 'b', '\n', 'c'] : List Char) ≠ [] ∧
    faithfulFromB ['a', 'b', '\n', 'c'] 0 0 [['a', 'b'], ['\n', 'c']] = true ∧
    (((chunk_markdown ['a', 'b', '\n', 'c'] "d" [['a', 'b'], ['\n', 'c']]).map
        (fun c => c.chunkIndex) =
      List.range (chunk_markdown ['a', 'b', '\n', 'c'] "d"
        [['a', 'b'], ['\n', 'c']]).length) ∧
    (∀ c ∈ chunk_markdown ['a', 'b', '\n', 'c'] "d" [['a', 'b'], ['\n', 'c']],
        1 ≤ c.startLine ∧ c.startLine ≤ c.endLine) ∧
    (faithfulFromB ['a', 'b', '\n', 'c'] 0 0 [['a', 'b'], ['\n', 'c']] = true →
      ((chunk_markdown ['a', 'b', '\n', 'c'] "d"
          [['a', 'b'], ['\n', 'c']]).head?.map (fun c => c.startLine) = some 1) ∧
      (∀ l : Nat, 1 ≤ l → l ≤ numLines ['a', 'b', '\n', 'c'] →
        ∃ c ∈ chunk_markdown ['a', 'b', '\n', 'c'] "d" [['a', 'b'], ['\n', 'c']],
          c.startLine ≤ l ∧ l ≤ c.endLine))) :=
  ⟨by simp, by decide,
    C3_chunk_markdown_guarantees ['a', 'b', '\n', 'c'] "d"
      [['a', 'b'], ['\n', 'c']] (by simp)⟩

/-! ## BM25 index (`search/bm25.py`)

The Okapi scoring itself lives in the external `rank_bm25` package, so the
embedding takes the score function (`BM25Okapi(corpus).get_scores(tokens)`)
as a parameter `getScores : corpus-token-lists → query-tokens → scores`.
One structural fact about Okapi scoring is used at concrete inputs below:
`get_scores` computes, for each document, a sum over the query's tokens of
per-term contributions, so a query with no tokens — and more generally a
query whose match set is empty — scores `0.0` on every document; that
behaviour is `zeroScores`.

`BM25Index.__init__` keeps `_bm25 = BM25Okapi([e.tokens for e in
_entries])` in sync with `_entries` via `_rebuild()` on every mutation, so
a state is fully described by its entry list, with scores recomputed
through `getScores` at query time; `not self._bm25 or not self._entries`
is equivalent to the entry list being empty. -/

/-- One `_Entry` of `BM25Index`: a chunk and its tokenized text. -/
structure BM25Entry where
  chunk : ChunkMeta
  tokens : List (List Char)
deriving DecidableEq, Repr

/-- Helper for Python's no-argument `str.split()`: accumulate the current
word (reversed) and break on whitespace, emitting no empty words. -/
def splitWsAux : List Char → List Char → List (List Char)
  | [], acc => if acc = [] then [] else [acc.reverse]
  | c :: cs, acc =>
    if c.isWhitespace then
      if acc = [] then splitWsAux cs [] else acc.reverse :: splitWsAux cs []
    else splitWsAux cs (c :: acc)

/-- Python `text.split()` (split on whitespace runs, no empty words). -/
def splitWs (s : List Char) : List (List Char) := splitWsAux s []

/-- `BM25Index._tokenize`: `text.lower().split()`. -/
def tokenize (text : List Char) : List (List Char) :=
  splitWs (text.map Char.toLower)

/-- The two `continue` filters of `BM25Index.search`: keep an entry unless
`doc_id` is given and differs, or `doc_ids` is given and misses. -/
def bm25Keep (docId : Option String) (docIds : Option (Finset String))
    (c : ChunkMeta) : Bool :=
  (match docId with
   | some d => c.docId == d
   | none => true) &&
  (match docIds with
   | some s => decide (c.docId ∈ s)
   | none => true)

/-- `BM25Index.search(query, top_k, doc_id, doc_ids)` (defaults
`top_k=10`, both filters `None`), with the external Okapi scoring passed
in as `getScores`.  Per the `rank_bm25` contract the score list has one
entry per corpus document, matching the source's `enumerate(scores)`
indexing of `self._entries`; the embedding pairs them with `zip`. -/
def bm25_search (getScores : List (List (List Char)) → List (List Char) → List ℚ)
    (entries : List BM25Entry) (query : List Char) (topK : Nat)
    (docId : Option String) (docIds : Option (Finset String)) :
    List (ChunkMeta × ℚ) :=
  if entries = [] then []
  else
    let tokens := tokenize query
    let scores := getScores (entries.map (fun e => e.tokens)) tokens
    let results := (entries.zip scores).filterMap (fun p =>
      if bm25Keep docId docIds p.1.chunk then some (p.1.chunk, p.2) else none)
    (sortByScoreDesc results).take topK

/-- What `BM25Okapi.get_scores` returns for a query whose match set is
empty (there is nothing to sum for any document): all zeros. -/
def zeroScores : List (List (List Char)) → List (List Char) → List ℚ :=
  fun corpus _ => corpus.map (fun _ => 0)

theorem zip_replicate_zero (entries : List BM25Entry) :
    entries.zip (List.replicate entries.length (0 : ℚ)) =
      entries.map (fun e => (e, (0 : ℚ))) := by
  induction entries with
  | nil => rfl
  | cons e rest ih => simp [List.replicate_succ, ih]

theorem filterMap_keep_zero (docId : Option String)
    (docIds : Option (Finset String)) (entries : List BM25Entry) :
    (entries.map (fun e => (e, (0 : ℚ)))).filterMap (fun p =>
        if bm25Keep docId docIds p.1.chunk then some (p.1.chunk, p.2) else none) =
      (entries.filter (fun e => bm25Keep docId docIds e.chunk)).map
        (fun e => (e.chunk, (0 : ℚ))) := by
  induction entries with
  | nil => rfl
  | cons e rest ih =>
    by_cases h : bm25Keep docId docIds e.chunk
    · simp [List.filterMap_cons, List.filter_cons, h, ih]
    · simp [List.filterMap_cons, List.filter_cons, h, ih]

theorem sorted_const_zero {α : Type} (f : α → ChunkMeta) (l : List α) :
    List.Sorted descAt (l.map (fun e => (f e, (0 : ℚ)))) := by
  induction l with
  | nil => simp
  | cons e rest ih =>
    rw [List.map_cons, List.sorted_cons]
    refine ⟨?_, ih⟩
    intro b hb
    obtain ⟨a, _, ha⟩ := List.mem_map.mp hb
    rw [← ha]
    exact le_refl _

/-- A one-entry corpus used to exercise the BM25 theorems. -/
def bm25WitnessEntry : BM25Entry := ⟨⟨"d1", 0, 1, 1, ['h', 'i']⟩, [['h', 'i']]⟩

/-- **C6 counterexample.** On a one-chunk corpus, the empty query (whose
match set is empty, so Okapi scores every chunk `0.0`) does *not* return
an empty list: `search` appends every entry whatever its score, so it
returns the chunk with score 0. -/
theorem C6_bm25_search_counterexample :
    tokenize [] = [] ∧
    bm25_search zeroScores [bm25WitnessEntry] [] 10 none none =
      [(⟨"d1", 0, 1, 1, ['h', 'i']⟩, 0)] ∧
    bm25_search zeroScores [bm25WitnessEntry] [] 10 none none ≠ [] := by
  refine ⟨by decide, by decide, by decide⟩

/-- **C6 (amended).** For every scoring function, index state and query,
`search` returns at most `top_k` pairs sorted by score descending (it is a
pure function of its inputs, hence deterministic), and an empty corpus
yields `[]`; but when the query's match set is empty (all-zero scores —
e.g. the empty query), a non-empty corpus yields the first
`min(top_k, filtered-count)` chunks with score 0, in index order, *not*
the empty list (still without error). -/
theorem C6_bm25_search_props
    (getScores : List (List (List Char)) → List (List Char) → List ℚ)
    (entries : List BM25Entry) (query : List Char) (topK : Nat)
    (docId : Option String) (docIds : Option (Finset String)) :
    (bm25_search getScores entries query topK docId docIds).length ≤ topK ∧
    List.Sorted descAt (bm25_search getScores entries query topK docId docIds) ∧
    (entries = [] → bm25_search getScores entries query topK docId docIds = []) ∧
    (getScores (entries.map (fun e => e.tokens)) (tokenize query) =
        List.replicate entries.length 0 →
      bm25_search getScores entries query topK docId docIds =
        ((entries.filter (fun e => bm25Keep docId docIds e.chunk)).map
          (fun e => (e.chunk, (0 : ℚ)))).take topK) := by
  refine ⟨?_, ?_, ?_, ?_⟩
  · by_cases h : entries = []
    · simp [bm25_search, h]
    · rw [bm25_search, if_neg h, List.length_take]
      exact min_le_left _ _
  · by_cases h : entries = []
    · simp [bm25_search, h]
    · rw [bm25_search, if_neg h]
      exact List.Pairwise.sublist (List.take_sublist _ _) (sortByScoreDesc_sorted _)
  · intro h
    simp [bm25_search, h]
  · intro hz
    by_cases h : entries = []
    · subst h
      simp [bm25_search]
    · rw [bm25_search, if_neg h]
      simp only [hz, zip_replicate_zero, filterMap_keep_zero]
      rw [sortByScoreDesc_of_sorted _ (sorted_const_zero _ _)]

theorem C6_bm25_search_props_witness :
    zeroScores ([bm25WitnessEntry].map (fun e => e.tokens)) (tokenize []) =
      List.replicate 1 0 ∧
    ((bm25_search zeroScores [bm25WitnessEntry] [] 10 none none).length ≤ 10 ∧
      List.Sorted descAt (bm25_search zeroScores [bm25WitnessEntry] [] 10 none none) ∧
      (([bm25WitnessEntry] : List BM25Entry) = [] →
        bm25_search zeroScores [bm25WitnessEntry] [] 10 none none = []) ∧
      (zeroScores ([bm25WitnessEntry].map (fun e => e.tokens)) (tokenize []) =
          List.replicate ([bm25WitnessEntry] : List BM25Entry).length 0 →
        bm25_search zeroScores [bm25WitnessEntry] [] 10 none none =
          (([bm25WitnessEntry].filter (fun e => bm25Keep none none e.chunk)).map
            (fun e => (e.chunk, (0 : ℚ)))).take 10)) :=
  ⟨by decide, C6_bm25_search_props zeroScores [bm25WitnessEntry] [] 10 none none⟩

/-! ## BM25 index as a stateful object (for the frame property)

`BM25Index` holds `_entries` and the derived `_bm25` (rebuilt from
`_entries` by `_rebuild()` on every mutation, hence a function of
`_entries`).  Methods are modelled state-passing: mutators return the new
state; `search`, whose body contains no assignment to any attribute,
returns its result together with the (unchanged) state. -/

/-- The mutable state of a `BM25Index`. -/
structure BM25State where
  entries : List BM25Entry
deriving DecidableEq, Repr

/-- `BM25Index.add_chunks`: append tokenized entries, then rebuild. -/
def BM25State.add_chunks (st : BM25State) (chunks : List ChunkMeta) : BM25State :=
  ⟨st.entries ++ chunks.map (fun c => ⟨c, tokenize c.text⟩)⟩

/-- `BM25Index.remove_document`: drop the document's entries, rebuild. -/
def BM25State.remove_document (st : BM25State) (docId : String) : BM25State :=
  ⟨st.entries.filter (fun e => !(e.chunk.docId == docId))⟩

/-- `BM25Index.size`. -/
def BM25State.size (st : BM25State) : Nat := st.entries.length

/-- `BM25Index.search` as a method: result plus post-state.  The body only
reads `self._bm25` and `self._entries` and assigns no attribute, so the
post-state is the pre-state. -/
def BM25State.search
    (getScores : List (List (List Char)) → List (List Char) → List ℚ)
    (st : BM25State) (query : List Char) (topK : Nat)
    (docId : Option String) (docIds : Option (Finset String)) :
    List (ChunkMeta × ℚ) × BM25State :=
  (bm25_search getScores st.entries query topK docId docIds, st)

/-- **C9.** `BM25Index.search` never mutates the index: for every state
and every combination of query, `top_k`, `doc_id` and `doc_ids`, the
post-state equals the pre-state — so `size` is unchanged and any
subsequent `search`, `add_chunks` or `remove_document` behaves exactly as
it would have without the search. -/
theorem C9_bm25_search_frame
    (getScores : List (List (List Char)) → List (List Char) → List ℚ)
    (st : BM25State) (query : List Char) (topK : Nat)
    (docId : Option String) (docIds : Option (Finset String)) :
    (BM25State.search getScores st query topK docId docIds).2 = st ∧
    (BM25State.search getScores st query topK docId docIds).2.size = st.size ∧
    (∀ (q2 : List Char) (t2 : Nat) (d2 : Option String)
        (ds2 : Option (Finset String)),
      BM25State.search getScores
          (BM25State.search getScores st query topK docId docIds).2 q2 t2 d2 ds2 =
        BM25State.search getScores st q2 t2 d2 ds2) ∧
    (∀ cs : List ChunkMeta,
      (BM25State.search getScores st query topK docId docIds).2.add_chunks cs =
        st.add_chunks cs) ∧
    (∀ d : String,
      (BM25State.search getScores st query topK docId docIds).2.remove_document d =
        st.remove_document d) :=
  ⟨rfl, rfl, fun _ _ _ _ => rfl, fun _ => rfl, fun _ => rfl⟩

/-! ## `read_doc` (`athenaeum.py`)

`read_doc` looks the document up (raising on an unknown id — not at issue
in C8, which concerns stored documents), reads its markdown text, splits
on `"\n"`, slices `lines[start_idx:end_idx]` with Python slice semantics
and joins with `"\n"`.  The embedding takes the document's text directly
and models Python's slice-bound normalisation (`pyIdx`): a negative bound
counts from the end, a positive one is clamped to the length. -/

/-- `Excerpt` from `models.py`. -/
structure Excerpt where
  docId : String
  lineRange : ℤ × ℤ
  text : List Char
  totalLines : Nat
deriving DecidableEq, Repr

/-- Python slice-bound normalisation for a list of length `n`. -/
def pyIdx (n : Nat) (i : ℤ) : Nat :=
  if i < 0 then ((n : ℤ) + i).toNat else min n i.toNat

/-- Python `l[a:b]`. -/
def pySlice {α : Type} (l : List α) (a b : ℤ) : List α :=
  (l.take (pyIdx l.length b)).drop (pyIdx l.length a)

/-- `Athenaeum.read_doc(doc_id, start_line=1, end_line=100)` from
`athenaeum.py`, for a stored document with markdown `docText`. -/
def read_doc (docText : List Char) (docId : String)
    (startLine endLine : ℤ) : Excerpt :=
  let lines := splitNl docText
  let startIdx : ℤ := max 0 (startLine - 1)
  let endIdx : ℤ := min (lines.length : ℤ) endLine
  { docId := docId
    lineRange := (startIdx + 1, endIdx)
    text := joinNl (pySlice lines startIdx endIdx)
    totalLines := lines.length }

theorem splitNl_no_newline (t : List Char) : ∀ piece ∈ splitNl t, '\n' ∉ piece := by
  induction t with
  | nil =>
    intro p hp
    simp only [splitNl, List.mem_singleton] at hp
    subst hp
    simp
  | cons c cs ih =>
    intro p hp
    simp only [splitNl] at hp
    by_cases hc : c = '\n'
    · rw [if_pos hc] at hp
      rcases List.mem_cons.mp hp with h | h
      · subst h; simp
      · exact ih p h
    · rw [if_neg hc] at hp
      cases hsp : splitNl cs with
      | nil => exact absurd hsp (splitNl_ne_nil cs)
      | cons hh tt =>
        rw [hsp] at hp
        rcases List.mem_cons.mp hp with h | h
        · subst h
          intro hmem
          rcases List.mem_cons.mp hmem with h' | h'
          · exact hc h'.symm
          · exact ih hh (hsp ▸ List.mem_cons_self ..) h'
        · exact ih p (hsp ▸ List.mem_cons_of_mem _ h)

theorem splitNl_of_no_newline (l : List Char) (h : '\n' ∉ l) : splitNl l = [l] := by
  induction l with
  | nil => rfl
  | cons c cs ih =>
    simp only [List.mem_cons, not_or] at h
    rw [splitNl, if_neg (fun hc => h.1 hc.symm), ih h.2]

theorem splitNl_append_newline (l t : List Char) (h : '\n' ∉ l) :
    splitNl (l ++ '\n' :: t) = l :: splitNl t := by
  induction l with
  | nil => simp [splitNl]
  | cons c cs ih =>
    simp only [List.mem_cons, not_or] at h
    rw [List.cons_append, splitNl, if_neg (fun hc => h.1 hc.symm), ih h.2]

theorem splitNl_joinNl (ls : List (List Char)) (hne : ls ≠ [])
    (h : ∀ p ∈ ls, '\n' ∉ p) : splitNl (joinNl ls) = ls := by
  induction ls with
  | nil => exact absurd rfl hne
  | cons l rest ih =>
    cases rest with
    | nil =>
      rw [joinNl]
      exact splitNl_of_no_newline l (h l (List.mem_cons_self ..))
    | cons l₂ rest' =>
      rw [joinNl, splitNl_append_newline l _ (h l (List.mem_cons_self ..))]
      rw [ih (by simp) (fun p hp => h p (List.mem_cons_of_mem _ hp))]

theorem drop_min_eq {α : Type} (l : List α) (n k : Nat) (h : l.length ≤ n) :
    l.drop (min n k) = l.drop k := by
  rcases le_total k n with hk | hk
  · rw [min_eq_right hk]
  · rw [min_eq_left hk, List.drop_eq_nil_of_le h,
      List.drop_eq_nil_of_le (le_trans h hk)]

theorem read_doc_slice (docText : List Char) (startLine endLine : ℤ)
    (he : 0 ≤ endLine) :
    pySlice (splitNl docText) (max 0 (startLine - 1))
        (min (((splitNl docText).length : ℤ)) endLine) =
      ((splitNl docText).take ((min ((numLines docText : ℤ)) endLine).toNat)).drop
        ((max 1 startLine - 1).toNat) := by
  have hn : (splitNl docText).length = numLines docText := length_splitNl docText
  unfold pySlice pyIdx
  have hb0 : ¬(min (((splitNl docText).length : ℤ)) endLine < 0) := by omega
  have ha0 : ¬(max 0 (startLine - 1) < 0) := by omega
  rw [if_neg hb0, if_neg ha0]
  have htake : min (splitNl docText).length
      (min (((splitNl docText).length : ℤ)) endLine).toNat =
      (min ((numLines docText : ℤ)) endLine).toNat := by
    rw [← hn]
    omega
  rw [htake]
  have hlen : ((splitNl docText).take
      ((min ((numLines docText : ℤ)) endLine).toNat)).length ≤
      (splitNl docText).length := by
    rw [List.length_take]
    exact min_le_right _ _
  rw [drop_min_eq _ _ _ hlen]
  congr 1
  omega

/-- **C8 counterexample.** `read_doc` with `start_line = 1` and
`end_line = -2` on a four-line document: `end_idx = min(4, -2) = -2`, and
the Python slice `lines[0:-2]` counts from the end, so the returned
excerpt has the non-empty text `"a\nb"` (lines 1–2) while its reported
`line_range` is `(1, -2)` — not the empty, internally consistent excerpt
the claim's "possibly-empty but valid excerpt" promises for a request
whose end line lies before its start line. -/
theorem C8_read_doc_counterexample :
    ((-2 : ℤ) < 1) ∧
    (read_doc ['a', '\n', 'b', '\n', 'c', '\n', 'd'] "d" 1 (-2)).lineRange =
      (1, -2) ∧
    (read_doc ['a', '\n', 'b', '\n', 'c', '\n', 'd'] "d" 1 (-2)).text =
      ['a', '\n', 'b'] ∧
    (read_doc ['a', '\n', 'b', '\n', 'c', '\n', 'd'] "d" 1 (-2)).text ≠ [] := by
  refine ⟨by decide, by decide, by decide, by decide⟩

/-- **C8 (amended).** For every stored document and every requested range
with a *non-negative* end line, `read_doc` clamps the start to `≥ 1` and
the end to `≤ total lines`, reports exactly that clamped range, and its
text is exactly the clamped selection of lines — empty (not an error)
whenever the clamped end lies before the clamped start, and parsing back
to precisely the selected lines otherwise.  (A negative requested end
line instead follows Python's count-from-the-end slice semantics, see the
counterexample.) -/
theorem C8_read_doc_clamps (docText : List Char) (d : String)
    (startLine endLine : ℤ) (he : 0 ≤ endLine) :
    (read_doc docText d startLine endLine).lineRange =
      (max 1 startLine, min (numLines docText : ℤ) endLine) ∧
    (read_doc docText d startLine endLine).totalLines = numLines docText ∧
    (1 : ℤ) ≤ max 1 startLine ∧
    min (numLines docText : ℤ) endLine ≤ (numLines docText : ℤ) ∧
    (read_doc docText d startLine endLine).text =
      joinNl (((splitNl docText).take
        ((min (numLines docText : ℤ) endLine).toNat)).drop
        ((max 1 startLine - 1).toNat)) ∧
    (min (numLines docText : ℤ) endLine < max 1 startLine →
      (read_doc docText d startLine endLine).text = []) ∧
    (((splitNl docText).take ((min (numLines docText : ℤ) endLine).toNat)).drop
        ((max 1 startLine - 1).toNat) ≠ [] →
      splitNl (read_doc docText d startLine endLine).text =
        ((splitNl docText).take ((min (numLines docText : ℤ) endLine).toNat)).drop
          ((max 1 startLine - 1).toNat)) := by
  have hslice := read_doc_slice docText startLine endLine he
  have htext : (read_doc docText d startLine endLine).text =
      joinNl (((splitNl docText).take
        ((min (numLines docText : ℤ) endLine).toNat)).drop
        ((max 1 startLine - 1).toNat)) := by
    show joinNl (pySlice (splitNl docText) _ _) = _
    rw [hslice]
  refine ⟨?_, ?_, le_max_left _ _, min_le_left _ _, htext, ?_, ?_⟩
  · show (max 0 (startLine - 1) + 1, min (((splitNl docText).length : ℤ)) endLine) = _
    rw [Prod.mk.injEq]
    constructor
    · omega
    · rw [length_splitNl]
  · show (splitNl docText).length = numLines docText
    exact length_splitNl docText
  · intro hlt
    rw [htext]
    have hnil : ((splitNl docText).take
        ((min (numLines docText : ℤ) endLine).toNat)).drop
        ((max 1 startLine - 1).toNat) = [] := by
      refine List.drop_eq_nil_of_le ?_
      rw [List.length_take]
      have h1 : (min (numLines docText : ℤ) endLine).toNat ≤
          (max 1 startLine - 1).toNat := by omega
      omega
    rw [hnil]
    rfl
  · intro hne
    rw [htext]
    refine splitNl_joinNl _ hne ?_
    intro p hp
    have hp₁ : p ∈ splitNl docText :=
      List.mem_of_mem_take (List.mem_of_mem_drop hp)
    exact splitNl_no_newline docText p hp₁

theorem C8_read_doc_clamps_witness :
    (0 : ℤ) ≤ 5 ∧
    ((read_doc ['a', '\n', 'b', '\n', 'c'] "d" 2 5).lineRange =
      (max 1 2, min (numLines ['a', '\n', 'b', '\n', 'c'] : ℤ) 5) ∧
    (read_doc ['a', '\n', 'b', '\n', 'c'] "d" 2 5).totalLines =
      numLines ['a', '\n', 'b', '\n', 'c'] ∧
    (1 : ℤ) ≤ max 1 2 ∧
    min (numLines ['a', '\n', 'b', '\n', 'c'] : ℤ) 5 ≤
      (numLines ['a', '\n', 'b', '\n', 'c'] : ℤ) ∧
    (read_doc ['a', '\n', 'b', '\n', 'c'] "d" 2 5).text =
      joinNl (((splitNl ['a', '\n', 'b', '\n', 'c']).take
        ((min (numLines ['a', '\n', 'b', '\n', 'c'] : ℤ) 5).toNat)).drop
        ((max 1 (2 : ℤ) - 1).toNat)) ∧
    (min (numLines ['a', '\n', 'b', '\n', 'c'] : ℤ) 5 < max 1 2 →
      (read_doc ['a', '\n', 'b', '\n', 'c'] "d" 2 5).text = []) ∧
    (((splitNl ['a', '\n', 'b', '\n', 'c']).take
        ((min (numLines ['a', '\n', 'b', '\n', 'c'] : ℤ) 5).toNat)).drop
        ((max 1 (2 : ℤ) - 1).toNat) ≠ [] →
      splitNl (read_doc ['a', '\n', 'b', '\n', 'c'] "d" 2 5).text =
        ((splitNl ['a', '\n', 'b', '\n', 'c']).take
          ((min (numLines ['a', '\n', 'b', '\n', 'c'] : ℤ) 5).toNat)).drop
          ((max 1 (2 : ℤ) - 1).toNat))) :=
  ⟨by decide, C8_read_doc_clamps ['a', '\n', 'b', '\n', 'c'] "d" 2 5 (by decide)⟩

/-! ## Document registry and `search_docs` (`models.py`, `document_store.py`, `athenaeum.py`)

`DocumentStore` is a dict `doc_id → Document` (unique keys, looked up with
`get`); the registry is modelled as the list of its documents and `get`
as `find?` on the id.

The repository's callers and tests (`document_store.list_by_tags`,
`tag_doc`/`untag_doc`/`list_tags`, `SearchHit(..., tags=...)`,
`test_load_doc_with_tags`, ...) all read and write a `tags` field on
`Document` and `SearchHit`.  Modelled from the spec: the `tags : set of
string` field of `Document` and of the aggregated document hit, which the
spec's data model and registry contract require (`"tags: set of string"`,
`list_by_tags(tags)` with OR semantics) but which is missing from the
`models.py` under `src/`.

The two chunk indices (BM25 and the vector index, whose internals are an
external store) enter as parameters of type `IndexSearch`, exactly the
call shape `index.search(query, top_k, doc_id, doc_ids)`. -/

/-- `TOCEntry` from `models.py`. -/
structure TOCEntry where
  title : List Char
  level : Nat
  startLine : Nat
  endLine : Option Nat
deriving DecidableEq, Repr

/-- `Document` from `models.py` (registry-relevant fields), plus the
spec-modelled `tags` field (see the section comment). -/
structure Doc where
  id : String
  name : List Char
  numLines : Nat
  tableOfContents : List TOCEntry
  tags : Finset String
deriving DecidableEq

/-- `SearchHit` from `models.py`, plus the spec-modelled `tags` field. -/
structure SearchHit where
  id : String
  name : List Char
  numLines : Nat
  tableOfContents : List Char
  tags : Finset String
  score : ℚ
  snippet : List Char
deriving DecidableEq

/-- Decimal rendering of a natural, for `format_toc`. -/
def natStr (n : Nat) : List Char := (Nat.repr n).toList

/-- `Document.format_toc` from `models.py` (an `end_line` of `None` — or
`0`, which is falsy under Python's `or` — prints `?`). -/
def format_toc (toc : List TOCEntry) : List Char :=
  if toc = [] then "No table of contents available".toList
  else
    joinNl (toc.map (fun e =>
      List.replicate (2 * (e.level - 1)) ' ' ++ "- ".toList ++ e.title ++
        " [lines ".toList ++ natStr e.startLine ++ "-".toList ++
        (match e.endLine with
         | some n => if n = 0 then "?".toList else natStr n
         | none => "?".toList) ++ "]".toList))

/-- `DocumentStore.list_by_tags`: documents matching ANY given tag. -/
def list_by_tags (registry : List Doc) (tags : Finset String) : List Doc :=
  registry.filter (fun d => decide (d.tags ∩ tags).Nonempty)

/-- `self._docs.get(doc_id)`. -/
def doc_get (registry : List Doc) (docId : String) : Option Doc :=
  registry.find? (fun d => d.id == docId)

/-- The search strategies of `Athenaeum.search_docs`. -/
inductive Strategy where
  | hybrid
  | bm25
  | vector
deriving DecidableEq, Repr

/-- The scopes of `Athenaeum.search_docs`. -/
inductive Scope where
  | names
  | contents
deriving DecidableEq, Repr

/-- The call shape of `BM25Index.search` / `VectorIndex.search`:
query, `top_k`, `doc_id`, `doc_ids`. -/
abbrev IndexSearch : Type :=
  List Char → Nat → Option String → Option (Finset String) → List (ChunkMeta × ℚ)

/-- `Athenaeum._search_chunks`: dispatch on the strategy; `hybrid` runs
both indices and fuses with RRF at constant `rrf_k`. -/
def search_chunks (bm25S vecS : IndexSearch) (rrfK : ℤ) (query : List Char)
    (topK : Nat) (strategy : Strategy) (docId : Option String)
    (docIds : Option (Finset String)) : List (ChunkMeta × ℚ) :=
  match strategy with
  | .bm25 => bm25S query topK docId docIds
  | .vector => vecS query topK docId docIds
  | .hybrid =>
    reciprocal_rank_fusion
      [bm25S query topK docId docIds, vecS query topK docId docIds] rrfK topK

/-- One step of `search_docs`' aggregation loop: update `doc_scores` and
`doc_snippets` for one `(chunk, score)` hit — first hit of a document, or
a strictly better score, stores the score and the chunk text's first 200
characters. -/
def aggStep (acc : List (String × (ℚ × List Char))) (p : ChunkMeta × ℚ) :
    List (String × (ℚ × List Char)) :=
  upsert p.1.docId
    (fun old =>
      match old with
      | none => (p.2, p.1.text.take 200)
      | some (s0, sn0) => if s0 < p.2 then (p.2, p.1.text.take 200) else (s0, sn0))
    acc

/-- The aggregation loop of `search_docs` over all fetched chunk hits
(`doc_scores` and `doc_snippets` share their keys and are always written
together, so they are one ordered dict with `(score, snippet)` values). -/
def aggregateHits (hits : List (ChunkMeta × ℚ)) : List (String × (ℚ × List Char)) :=
  hits.foldl aggStep []

/-- The registry-enrichment step of the `contents` branch: a sorted
`((doc_id, snippet), score)` entry becomes a `SearchHit` carrying the
registry document's name, line count, formatted table of contents and
tags (an id unknown to the registry is dropped, `continue` in the
source). -/
def enrichHit (registry : List Doc) (e : (String × List Char) × ℚ) :
    Option SearchHit :=
  (doc_get registry e.1.1).map (fun doc =>
    { id := doc.id
      name := doc.name
      numLines := doc.numLines
      tableOfContents := format_toc doc.tableOfContents
      tags := doc.tags
      score := e.2
      snippet := e.1.2 })

/-- The `contents` branch of `search_docs` (its default, aggregating
path): over-fetch `top_k * 3` chunk hits, aggregate per document, sort by
score descending, enrich from the registry (dropping unknown ids), and
truncate to `top_k`. -/
def search_docs_contents (registry : List Doc) (bm25S vecS : IndexSearch)
    (rrfK : ℤ) (query : List Char) (topK : Nat) (strategy : Strategy)
    (docIds : Option (Finset String)) : List SearchHit :=
  let hits := search_chunks bm25S vecS rrfK query (topK * 3) strategy none docIds
  let agg := (aggregateHits hits).map (fun e => ((e.1, e.2.2), e.2.1))
  ((sortByScoreDesc agg).filterMap (enrichHit registry)).take topK

/-- `Athenaeum._search_by_name`: case-insensitive substring scoring over
display names (exact match 1.0, containment 0.5, else excluded), sorted
descending, truncated. -/
def search_by_name (registry : List Doc) (query : List Char) (topK : Nat)
    (docIds : Option (Finset String)) : List SearchHit :=
  let ql := query.map Char.toLower
  let scored := registry.filterMap (fun doc =>
    if (match docIds with
        | some s => decide (doc.id ∈ s)
        | none => true) then
      (if ql <:+: doc.name.map Char.toLower then
        some (doc, if ql = doc.name.map Char.toLower then (1 : ℚ) else 1 / 2)
      else none)
    else none)
  ((sortByScoreDesc scored).take topK).map (fun p =>
    { id := p.1.id
      name := p.1.name
      numLines := p.1.numLines
      tableOfContents := format_toc p.1.tableOfContents
      tags := p.1.tags
      score := p.2
      snippet := [] })

/-- Scope dispatch of `search_docs` once the tag filter is resolved. -/
def search_docs_scoped (registry : List Doc) (bm25S vecS : IndexSearch)
    (rrfK : ℤ) (query : List Char) (topK : Nat) (scope : Scope)
    (strategy : Strategy) (docIds : Option (Finset String)) : List SearchHit :=
  match scope with
  | .names => search_by_name registry query topK docIds
  | .contents =>
    search_docs_contents registry bm25S vecS rrfK query topK strategy docIds

/-- `Athenaeum.search_docs(query, top_k=10, scope="contents",
strategy="hybrid", tags=None)` from `athenaeum.py` (an absent/empty tag
set is falsy in `if tags:`, so both are the empty `Finset`). -/
def search_docs (registry : List Doc) (bm25S vecS : IndexSearch) (rrfK : ℤ)
    (query : List Char) (topK : Nat) (scope : Scope) (strategy : Strategy)
    (tags : Finset String) : List SearchHit :=
  if tags = ∅ then
    search_docs_scoped registry bm25S vecS rrfK query topK scope strategy none
  else
    let ids := ((list_by_tags registry tags).map (fun d => d.id)).toFinset
    if ids = ∅ then []
    else search_docs_scoped registry bm25S vecS rrfK query topK scope strategy
      (some ids)

/-- **C5.** For every `search_docs` call with a non-empty tag set: the set
is resolved against the registry with OR semantics (a document qualifies
iff it carries at least one requested tag); an empty resolved id set
short-circuits to `[]` — for every behaviour of the two indices, so no
index query can influence the result; and otherwise the result depends on
the indices only through calls carrying exactly the resolved id set as
their `doc_ids` filter. -/
theorem C5_search_docs_tag_filter (registry : List Doc)
    (bm25S vecS : IndexSearch) (rrfK : ℤ) (query : List Char) (topK : Nat)
    (scope : Scope) (strategy : Strategy) (tags : Finset String)
    (ht : tags ≠ ∅) :
    (∀ d, d ∈ list_by_tags registry tags ↔
      d ∈ registry ∧ ∃ t ∈ tags, t ∈ d.tags) ∧
    (((list_by_tags registry tags).map (fun d => d.id)).toFinset = ∅ →
      ∀ f g : IndexSearch,
        search_docs registry f g rrfK query topK scope strategy tags = []) ∧
    (∀ f g : IndexSearch,
      (∀ (q : List Char) (n : Nat),
        f q n none (some (((list_by_tags registry tags).map (fun d => d.id)).toFinset)) =
          bm25S q n none (some (((list_by_tags registry tags).map (fun d => d.id)).toFinset))) →
      (∀ (q : List Char) (n : Nat),
        g q n none (some (((list_by_tags registry tags).map (fun d => d.id)).toFinset)) =
          vecS q n none (some (((list_by_tags registry tags).map (fun d => d.id)).toFinset))) →
      search_docs registry f g rrfK query topK scope strategy tags =
        search_docs registry bm25S vecS rrfK query topK scope strategy tags) := by
  refine ⟨?_, ?_, ?_⟩
  · intro d
    rw [list_by_tags, List.mem_filter]
    constructor
    · rintro ⟨hd, hne⟩
      rw [decide_eq_true_eq] at hne
      obtain ⟨x, hx⟩ := hne
      rw [Finset.mem_inter] at hx
      exact ⟨hd, x, hx.2, hx.1⟩
    · rintro ⟨hd, x, hxt, hxd⟩
      refine ⟨hd, ?_⟩
      rw [decide_eq_true_eq]
      exact ⟨x, Finset.mem_inter.mpr ⟨hxd, hxt⟩⟩
  · intro hids f g
    rw [search_docs, if_neg ht, if_pos hids]
  · intro f g hf hg
    rw [search_docs, search_docs, if_neg ht, if_neg ht]
    by_cases hids : ((list_by_tags registry tags).map (fun d => d.id)).toFinset = ∅
    · rw [if_pos hids, if_pos hids]
    · rw [if_neg hids, if_neg hids]
      cases scope with
      | names => rfl
      | contents =>
        show search_docs_contents registry f g rrfK query topK strategy _ =
          search_docs_contents registry bm25S vecS rrfK query topK strategy _
        rw [search_docs_contents, search_docs_contents]
        cases strategy with
        | bm25 => rw [search_chunks, search_chunks, hf]
        | vector => rw [search_chunks, search_chunks, hg]
        | hybrid => rw [search_chunks, search_chunks, hf, hg]

/-- Registry used by the `search_docs` witnesses. -/
def witnessRegistry : List Doc :=
  [⟨"d1", "alpha.md".toList, 3, [], {"report"}⟩,
   ⟨"d2", "beta.md".toList, 5, [⟨"Top".toList, 1, 1, some 5⟩], {"notes"}⟩]

/-- A concrete index function for the `search_docs` witnesses. -/
def witnessIndex : IndexSearch := fun _ _ _ docIds =>
  match docIds with
  | some s =>
    if "d1" ∈ s then [(⟨"d1", 0, 1, 2, "hello world".toList⟩, 2)] else []
  | none =>
    [(⟨"d1", 0, 1, 2, "hello world".toList⟩, 2),
     (⟨"d2", 0, 1, 3, "other text".toList⟩, 1)]

theorem C5_search_docs_tag_filter_witness :
    ({"zzz"} : Finset String) ≠ ∅ ∧
    ((∀ d, d ∈ list_by_tags witnessRegistry {"zzz"} ↔
      d ∈ witnessRegistry ∧ ∃ t ∈ ({"zzz"} : Finset String), t ∈ d.tags) ∧
    (((list_by_tags witnessRegistry {"zzz"}).map (fun d => d.id)).toFinset = ∅ →
      ∀ f g : IndexSearch,
        search_docs witnessRegistry f g 60 "q".toList 10 .contents .hybrid
          {"zzz"} = []) ∧
    (∀ f g : IndexSearch,
      (∀ (q : List Char) (n : Nat),
        f q n none (some (((list_by_tags witnessRegistry {"zzz"}).map
            (fun d => d.id)).toFinset)) =
          witnessIndex q n none (some (((list_by_tags witnessRegistry
            {"zzz"}).map (fun d => d.id)).toFinset))) →
      (∀ (q : List Char) (n : Nat),
        g q n none (some (((list_by_tags witnessRegistry {"zzz"}).map
            (fun d => d.id)).toFinset)) =
          witnessIndex q n none (some (((list_by_tags witnessRegistry
            {"zzz"}).map (fun d => d.id)).toFinset))) →
      search_docs witnessRegistry f g 60 "q".toList 10 .contents .hybrid
          {"zzz"} =
        search_docs witnessRegistry witnessIndex witnessIndex 60 "q".toList 10
          .contents .hybrid {"zzz"})) ∧
    search_docs witnessRegistry witnessIndex witnessIndex 60 "q".toList 10
      .contents .hybrid {"zzz"} = [] :=
  ⟨by decide,
   C5_search_docs_tag_filter witnessRegistry witnessIndex witnessIndex 60
     "q".toList 10 .contents .hybrid {"zzz"} (by decide),
   by decide⟩

/-- The `(score, first-200-chars)` pairs a given document receives from a
hit list, in hit order. -/
def projHits (hits : List (ChunkMeta × ℚ)) (docId : String) :
    List (ℚ × List Char) :=
  hits.filterMap (fun p =>
    if p.1.docId = docId then some (p.2, p.1.text.take 200) else none)

/-- What the aggregation loop computes for one key: fold "keep the
strictly better score (ties keep the incumbent)" over the key's hits. -/
def aggCombine : Option (ℚ × List Char) → List (ℚ × List Char) →
    Option (ℚ × List Char)
  | v, [] => v
  | none, q :: rest => aggCombine (some q) rest
  | some v0, q :: rest => aggCombine (some (if v0.1 < q.1 then q else v0)) rest

theorem alookup_aggregate (hits : List (ChunkMeta × ℚ)) :
    ∀ (acc : List (String × (ℚ × List Char))) (docId : String),
      alookup docId (hits.foldl aggStep acc) =
        aggCombine (alookup docId acc) (projHits hits docId) := by
  induction hits with
  | nil => intro acc docId; simp [projHits, aggCombine]
  | cons p rest ih =>
    intro acc docId
    rw [List.foldl_cons, ih]
    by_cases hd : p.1.docId = docId
    · have hlook : alookup docId (aggStep acc p) =
          some (match alookup docId acc with
            | none => (p.2, p.1.text.take 200)
            | some (s0, sn0) =>
              if s0 < p.2 then (p.2, p.1.text.take 200) else (s0, sn0)) := by
        rw [aggStep, hd, alookup_upsert_self]
      rw [hlook]
      have hproj : projHits (p :: rest) docId =
          (p.2, p.1.text.take 200) :: projHits rest docId := by
        rw [projHits, List.filterMap_cons, if_pos hd]
        rfl
      rw [hproj]
      cases hacc : alookup docId acc with
      | none => rfl
      | some v0 =>
        obtain ⟨s0, sn0⟩ := v0
        show aggCombine (some (if s0 < p.2 then (p.2, p.1.text.take 200)
            else (s0, sn0))) (projHits rest docId) = _
        by_cases hlt : s0 < p.2
        · rw [if_pos hlt]
          show _ = aggCombine (some (if (s0, sn0).1 < (p.2, p.1.text.take 200).1
              then (p.2, p.1.text.take 200) else (s0, sn0))) (projHits rest docId)
          rw [if_pos hlt]
        · rw [if_neg hlt]
          show _ = aggCombine (some (if (s0, sn0).1 < (p.2, p.1.text.take 200).1
              then (p.2, p.1.text.take 200) else (s0, sn0))) (projHits rest docId)
          rw [if_neg hlt]
    · have hlook : alookup docId (aggStep acc p) = alookup docId acc := by
        rw [aggStep]
        exact alookup_upsert_ne _ _ (fun h => hd h.symm) _ _
      have hproj : projHits (p :: rest) docId = projHits rest docId := by
        rw [projHits, List.filterMap_cons, if_neg hd]
        rfl
      rw [hlook, hproj]

theorem aggCombine_some (l : List (ℚ × List Char)) :
    ∀ (v w : ℚ × List Char), aggCombine (some v) l = some w →
      (w = v ∨ w ∈ l) ∧ v.1 ≤ w.1 ∧ ∀ x ∈ l, x.1 ≤ w.1 := by
  induction l with
  | nil =>
    intro v w h
    rw [aggCombine] at h
    injection h with h
    subst h
    exact ⟨Or.inl rfl, le_refl _, by simp⟩
  | cons q rest ih =>
    intro v w h
    rw [aggCombine] at h
    obtain ⟨hmem, hle, hbound⟩ := ih _ w h
    by_cases hlt : v.1 < q.1
    · rw [if_pos hlt] at hmem hle
      refine ⟨?_, ?_, ?_⟩
      · rcases hmem with h' | h'
        · exact Or.inr (h' ▸ List.mem_cons_self ..)
        · exact Or.inr (List.mem_cons_of_mem _ h')
      · exact le_trans (le_of_lt hlt) hle
      · intro x hx
        rcases List.mem_cons.mp hx with h' | h'
        · exact h' ▸ hle
        · exact hbound x h'
    · rw [if_neg hlt] at hmem hle
      refine ⟨hmem.imp id (List.mem_cons_of_mem _), hle, ?_⟩
      intro x hx
      rcases List.mem_cons.mp hx with h' | h'
      · subst h'
        exact le_trans (le_of_not_lt hlt) hle
      · exact hbound x h'

theorem aggCombine_none (l : List (ℚ × List Char)) (w : ℚ × List Char)
    (h : aggCombine none l = some w) :
    w ∈ l ∧ ∀ x ∈ l, x.1 ≤ w.1 := by
  cases l with
  | nil => rw [aggCombine] at h; exact absurd h (by simp)
  | cons q rest =>
    rw [aggCombine] at h
    obtain ⟨hmem, hle, hbound⟩ := aggCombine_some rest q w h
    refine ⟨?_, ?_⟩
    · rcases hmem with h' | h'
      · exact h' ▸ List.mem_cons_self ..
      · exact List.mem_cons_of_mem _ h'
    · intro x hx
      rcases List.mem_cons.mp hx with h' | h'
      · exact h' ▸ hle
      · exact hbound x h'

theorem nodup_keys_aggregate (hits : List (ChunkMeta × ℚ)) :
    ∀ acc : List (String × (ℚ × List Char)),
      (acc.map Prod.fst).Nodup → ((hits.foldl aggStep acc).map Prod.fst).Nodup := by
  induction hits with
  | nil => intro acc h; simpa using h
  | cons p rest ih =>
    intro acc h
    rw [List.foldl_cons]
    exact ih _ (nodup_keys_upsert _ _ _ h)

theorem mem_projHits (hits : List (ChunkMeta × ℚ)) (docId : String)
    (s : ℚ) (sn : List Char) :
    (s, sn) ∈ projHits hits docId ↔
      ∃ p ∈ hits, p.1.docId = docId ∧ p.2 = s ∧ sn = p.1.text.take 200 := by
  rw [projHits, List.mem_filterMap]
  constructor
  · rintro ⟨p, hp, hf⟩
    by_cases hd : p.1.docId = docId
    · rw [if_pos hd] at hf
      injection hf with hf
      injection hf with h1 h2
      exact ⟨p, hp, hd, h1, h2.symm⟩
    · rw [if_neg hd] at hf
      exact absurd hf (by simp)
  · rintro ⟨p, hp, hd, hs, hsn⟩
    exact ⟨p, hp, by rw [if_pos hd, hs, ← hsn]⟩

theorem enrichHit_some (registry : List Doc) (e : (String × List Char) × ℚ)
    (h : SearchHit) (he : enrichHit registry e = some h) :
    ∃ doc ∈ registry, doc.id = e.1.1 ∧
      h = { id := doc.id
            name := doc.name
            numLines := doc.numLines
            tableOfContents := format_toc doc.tableOfContents
            tags := doc.tags
            score := e.2
            snippet := e.1.2 } := by
  rw [enrichHit] at he
  cases hdg : doc_get registry e.1.1 with
  | none => rw [hdg] at he; exact absurd he (by simp)
  | some doc =>
    rw [hdg, Option.map_some'] at he
    injection he with he
    refine ⟨doc, List.mem_of_find?_eq_some hdg, ?_, he.symm⟩
    have hpred := List.find?_some hdg
    rwa [beq_iff_eq] at hpred

/-- **C4.** For every query with scope `contents` under the default
aggregation and no tag filter: the result depends on the indices only
through the `top_k * 3` over-fetch call of the selected strategy; every
returned hit corresponds to a registry document and carries its name,
total line count, formatted table of contents and tag set; its score is
the maximum score among the fetched chunk hits of that document and its
snippet is the first 200 characters (hence at most 200) of a chunk
attaining that maximum; and the result is sorted by that score descending
and truncated to `top_k`. -/
theorem C4_search_docs_aggregation (registry : List Doc)
    (bm25S vecS : IndexSearch) (rrfK : ℤ) (query : List Char) (topK : Nat)
    (strategy : Strategy) :
    (∀ f g : IndexSearch,
      f query (topK * 3) none none = bm25S query (topK * 3) none none →
      g query (topK * 3) none none = vecS query (topK * 3) none none →
      search_docs registry f g rrfK query topK .contents strategy ∅ =
        search_docs registry bm25S vecS rrfK query topK .contents strategy ∅) ∧
    (search_docs registry bm25S vecS rrfK query topK .contents strategy ∅).length
      ≤ topK ∧
    List.Sorted (fun h1 h2 : SearchHit => h2.score ≤ h1.score)
      (search_docs registry bm25S vecS rrfK query topK .contents strategy ∅) ∧
    (∀ h ∈ search_docs registry bm25S vecS rrfK query topK .contents strategy ∅,
      ∃ doc ∈ registry, doc.id = h.id ∧ h.name = doc.name ∧
        h.numLines = doc.numLines ∧
        h.tableOfContents = format_toc doc.tableOfContents ∧
        h.tags = doc.tags ∧
        (∀ p ∈ search_chunks bm25S vecS rrfK query (topK * 3) strategy none none,
          p.1.docId = h.id → p.2 ≤ h.score) ∧
        (∃ p ∈ search_chunks bm25S vecS rrfK query (topK * 3) strategy none none,
          p.1.docId = h.id ∧ p.2 = h.score ∧ h.snippet = p.1.text.take 200) ∧
        h.snippet.length ≤ 200) := by
  have hout : search_docs registry bm25S vecS rrfK query topK .contents strategy ∅ =
      ((sortByScoreDesc
          ((aggregateHits (search_chunks bm25S vecS rrfK query (topK * 3)
            strategy none none)).map (fun e => ((e.1, e.2.2), e.2.1)))).filterMap
        (enrichHit registry)).take topK := by
    rw [search_docs, if_pos rfl]
    rfl
  refine ⟨?_, ?_, ?_, ?_⟩
  · intro f g hf hg
    rw [search_docs, search_docs, if_pos rfl, if_pos rfl]
    show search_docs_contents registry f g rrfK query topK strategy none =
      search_docs_contents registry bm25S vecS rrfK query topK strategy none
    rw [search_docs_contents, search_docs_contents]
    cases strategy with
    | bm25 => rw [search_chunks, search_chunks, hf]
    | vector => rw [search_chunks, search_chunks, hg]
    | hybrid => rw [search_chunks, search_chunks, hf, hg]
  · rw [hout, List.length_take]
    exact min_le_left _ _
  · rw [hout]
    refine List.Pairwise.sublist (List.take_sublist _ _) ?_
    refine List.Pairwise.filterMap (enrichHit registry) ?_
      (sortByScoreDesc_sorted _)
    intro a a' hr b hb b' hb'
    rw [Option.mem_def] at hb hb'
    obtain ⟨doc, _, _, hbe⟩ := enrichHit_some registry a b hb
    obtain ⟨doc', _, _, hbe'⟩ := enrichHit_some registry a' b' hb'
    subst hbe
    subst hbe'
    exact hr
  · intro h hmem
    rw [hout] at hmem
    have h1 := List.mem_of_mem_take hmem
    obtain ⟨e, he, hfe⟩ := List.mem_filterMap.mp h1
    have he' := (sortByScoreDesc_perm _).subset he
    obtain ⟨orig, horig, heq⟩ := List.mem_map.mp he'
    obtain ⟨docId, v⟩ := orig
    obtain ⟨sc, sn⟩ := v
    subst heq
    obtain ⟨doc, hdocmem, hdocid, hh⟩ := enrichHit_some registry _ h hfe
    have hnd : ((aggregateHits (search_chunks bm25S vecS rrfK query (topK * 3)
        strategy none none)).map Prod.fst).Nodup :=
      nodup_keys_aggregate _ [] (by simp)
    have hl : alookup docId (aggregateHits (search_chunks bm25S vecS rrfK query
        (topK * 3) strategy none none)) = some (sc, sn) :=
      alookup_eq_some_of_mem _ _ _ hnd horig
    have hcomb : aggCombine none (projHits (search_chunks bm25S vecS rrfK query
        (topK * 3) strategy none none) docId) = some (sc, sn) := by
      rw [← hl, aggregateHits, alookup_aggregate]
      rfl
    obtain ⟨hmemproj, hbound⟩ := aggCombine_none _ _ hcomb
    obtain ⟨p₀, hp₀, hp₀d, hp₀s, hp₀sn⟩ := (mem_projHits _ _ _ _).mp hmemproj
    refine ⟨doc, hdocmem, ?_, ?_, ?_, ?_, ?_, ?_, ?_, ?_⟩ <;> subst hh
    · rfl
    · rfl
    · rfl
    · rfl
    · rfl
    · intro p hp hpid
      have hpmem : (p.2, p.1.text.take 200) ∈ projHits (search_chunks bm25S vecS
          rrfK query (topK * 3) strategy none none) docId :=
        (mem_projHits _ _ _ _).mpr ⟨p, hp, by rw [hpid]; exact hdocid, rfl, rfl⟩
      exact hbound _ hpmem
    · exact ⟨p₀, hp₀, by rw [hp₀d]; exact hdocid.symm, hp₀s, hp₀sn⟩
    · show sn.length ≤ 200
      rw [hp₀sn, List.length_take]
      exact min_le_left _ _

theorem C4_search_docs_aggregation_witness :
    (search_docs witnessRegistry witnessIndex witnessIndex 60 "q".toList 2
        .contents .bm25 ∅).length ≤ 2 ∧
    List.Sorted (fun h1 h2 : SearchHit => h2.score ≤ h1.score)
      (search_docs witnessRegistry witnessIndex witnessIndex 60 "q".toList 2
        .contents .bm25 ∅) ∧
    (∀ h ∈ search_docs witnessRegistry witnessIndex witnessIndex 60 "q".toList 2
        .contents .bm25 ∅,
      ∃ doc ∈ witnessRegistry, doc.id = h.id ∧ h.name = doc.name ∧
        h.numLines = doc.numLines ∧
        h.tableOfContents = format_toc doc.tableOfContents ∧
        h.tags = doc.tags ∧
        (∀ p ∈ search_chunks witnessIndex witnessIndex 60 "q".toList (2 * 3)
            .bm25 none none,
          p.1.docId = h.id → p.2 ≤ h.score) ∧
        (∃ p ∈ search_chunks witnessIndex witnessIndex 60 "q".toList (2 * 3)
            .bm25 none none,
          p.1.docId = h.id ∧ p.2 = h.score ∧ h.snippet = p.1.text.take 200) ∧
        h.snippet.length ≤ 200) ∧
    search_docs witnessRegistry witnessIndex witnessIndex 60 "q".toList 2
        .contents .bm25 ∅ =
      search_docs witnessRegistry witnessIndex witnessIndex 60 "q".toList 2
        .contents .bm25 ∅ :=
  ⟨(C4_search_docs_aggregation witnessRegistry witnessIndex witnessIndex 60
      "q".toList 2 .bm25).2.1,
   (C4_search_docs_aggregation witnessRegistry witnessIndex witnessIndex 60
      "q".toList 2 .bm25).2.2.1,
   (C4_search_docs_aggregation witnessRegistry witnessIndex witnessIndex 60
      "q".toList 2 .bm25).2.2.2,
   (C4_search_docs_aggregation witnessRegistry witnessIndex witnessIndex 60
      "q".toList 2 .bm25).1 witnessIndex witnessIndex rfl rfl⟩

/-! ## The line-window chunking strategy (C2)

The spec requires two selectable splitting strategies.  Strategy 2 (the
character size-window recursive splitter with offset-based line recovery)
is `make_splitter`/`chunk_markdown` above.  Strategy 1, the line-window
splitter with heading snap, is code of this repository missing from
`src/`: `athenaeum.py` calls `chunk_markdown(text, doc_id, chunk_size,
chunk_overlap, text_splitter=...)`, a signature the `chunker.py` under
`src/` does not accept, so the strategy taking those line-based
parameters is modelled from the spec below. -/

/-- Modelled from the spec: a structural-heading line — markdown `#` to
`######` followed by whitespace. -/
def isHeadingLine (l : List Char) : Bool :=
  let hashes := l.takeWhile (fun c => c = '#')
  decide (1 ≤ hashes.length) && decide (hashes.length ≤ 6) &&
    (match l.drop hashes.length with
     | c :: _ => c.isWhitespace
     | [] => false)

/-- Whether 0-indexed line `j` of the document is a heading line. -/
def headingAt (lines : List (List Char)) (j : Nat) : Bool :=
  match lines.get? j with
  | some l => isHeadingLine l
  | none => false

/-- Modelled from the spec: the first heading line found scanning forward
from `lo` within `[lo, hi)`. -/
def findHeading (lines : List (List Char)) (lo hi : Nat) : Option Nat :=
  (List.range' lo (hi - lo)).find? (headingAt lines)

/-- One chunk of the line-window strategy: 0-indexed window
`[start, stop)` over the document's lines, with its emission index and
joined text. -/
structure LineChunk where
  idx : Nat
  start : Nat
  stop : Nat
  text : List Char
deriving DecidableEq, Repr

/-- Modelled from the spec: the line-window emission loop.  Each chunk
spans `[start, start + chunk_size)` clipped to the document; the loop
ends when the clipped end reaches the total; otherwise the next start is
`end - chunk_overlap`, snapped forward to the first heading line in
`[end - chunk_overlap, end)` if one exists.  `fuel` bounds the number of
iterations (the wrapper passes enough for any `chunk_overlap <
chunk_size`). -/
def lineWindowGo (lines : List (List Char)) (size overlap : Nat) :
    Nat → Nat → Nat → List LineChunk
  | 0, _, _ => []
  | fuel + 1, i, start =>
    let stop := min (start + size) lines.length
    let chunk : LineChunk := ⟨i, start, stop, joinNl ((lines.take stop).drop start)⟩
    if lines.length ≤ stop then [chunk]
    else
      let ns := (findHeading lines (stop - overlap) stop).getD (stop - overlap)
      chunk :: lineWindowGo lines size overlap fuel (i + 1) ns

/-- Modelled from the spec: the line-window splitting strategy
(`chunk_size` and `chunk_overlap` counted in lines); empty input yields
zero chunks. -/
def lineWindowSplit (size overlap : Nat) (text : List Char) : List LineChunk :=
  if text = [] then []
  else lineWindowGo (splitNl text) size overlap ((splitNl text).length + 1) 0 0

/-- A `LineChunk` as `ChunkMetadata`: window `[start, stop)` over
0-indexed lines is the 1-indexed line range `[start+1, stop]`. -/
def lineChunkMeta (docId : String) (c : LineChunk) : ChunkMeta :=
  ⟨docId, c.idx, c.start + 1, c.stop, c.text⟩

/-- The two selectable strategies of the chunking component. -/
inductive ChunkStrategy where
  | lineWindow
  | sizeWindow
deriving DecidableEq, Repr

/-- The chunking configuration: which strategy, and its parameters. -/
structure ChunkCfg where
  strategy : ChunkStrategy
  chunkSize : Nat
  chunkOverlap : Nat
deriving DecidableEq, Repr

/-- Configuration-dispatched chunking: the configuration alone selects
the strategy; `sizeSplit` is the external recursive character splitter
built by `make_splitter` and is consulted only under `sizeWindow`. -/
def chunkDocument (cfg : ChunkCfg) (sizeSplit : List Char → List (List Char))
    (docId : String) (text : List Char) : List ChunkMeta :=
  match cfg.strategy with
  | .lineWindow =>
    (lineWindowSplit cfg.chunkSize cfg.chunkOverlap text).map (lineChunkMeta docId)
  | .sizeWindow => chunk_markdown text docId (sizeSplit text)

/-- The spec's heading-snap contract between consecutive chunks: either
no heading line falls in the overlap window `[stop - overlap, stop)` and
the next start is `stop - overlap` unsnapped, or the next start is the
*first* heading line in that window. -/
def snapRel (lines : List (List Char)) (overlap : Nat)
    (c c' : LineChunk) : Prop :=
  (c'.start = c.stop - overlap ∧
    ∀ j, c.stop - overlap ≤ j → j < c.stop → headingAt lines j = false) ∨
  (headingAt lines c'.start = true ∧ c.stop - overlap ≤ c'.start ∧
    c'.start < c.stop ∧
    ∀ j, c.stop - overlap ≤ j → j < c'.start → headingAt lines j = false)

theorem find?_range'_least (p : Nat → Bool) (n : Nat) :
    ∀ (lo j : Nat), (List.range' lo n).find? p = some j →
      lo ≤ j ∧ j < lo + n ∧ p j = true ∧
        ∀ i, lo ≤ i → i < j → p i = false := by
  induction n with
  | zero => intro lo j h; simp [List.range'] at h
  | succ n ih =>
    intro lo j h
    rw [List.range'_succ, List.find?_cons] at h
    cases hp : p lo with
    | true =>
      rw [hp] at h
      simp only [cond_true, Option.some.injEq] at h
      subst h
      exact ⟨le_refl _, by omega, hp, fun i h1 h2 => absurd h2 (by omega)⟩
    | false =>
      rw [hp] at h
      simp only [cond_false] at h
      obtain ⟨h1, h2, h3, h4⟩ := ih (lo + 1) j h
      refine ⟨by omega, by omega, h3, ?_⟩
      intro i hi1 hi2
      rcases Nat.eq_or_lt_of_le hi1 with he | hl
      · rw [← he]; exact hp
      · exact h4 i hl hi2

theorem find?_range'_none (p : Nat → Bool) (n : Nat) (lo : Nat)
    (h : (List.range' lo n).find? p = none) :
    ∀ i, lo ≤ i → i < lo + n → p i = false := by
  intro i h1 h2
  have := List.find?_eq_none.mp h i (List.mem_range'_1.mpr ⟨h1, h2⟩)
  cases hp : p i with
  | true => exact absurd hp this
  | false => rfl

theorem lineWindowGo_head_start (lines : List (List Char)) (size overlap : Nat) :
    ∀ (fuel i start : Nat),
      ∀ c ∈ (lineWindowGo lines size overlap fuel i start).head?, c.start = start := by
  intro fuel i start c hc
  cases fuel with
  | zero => simp [lineWindowGo] at hc
  | succ f =>
    rw [lineWindowGo] at hc
    by_cases hstop : lines.length ≤ min (start + size) lines.length
    · rw [if_pos hstop] at hc
      simp only [List.head?_cons, Option.mem_def, Option.some.injEq] at hc
      subst hc
      rfl
    · rw [if_neg hstop] at hc
      simp only [List.head?_cons, Option.mem_def, Option.some.injEq] at hc
      subst hc
      rfl

theorem lineWindowGo_chain (lines : List (List Char)) (size overlap : Nat) :
    ∀ (fuel i start : Nat),
      List.Chain' (snapRel lines overlap)
        (lineWindowGo lines size overlap fuel i start) := by
  intro fuel
  induction fuel with
  | zero => intro i start; simp [lineWindowGo]
  | succ f ih =>
    intro i start
    rw [lineWindowGo]
    by_cases hstop : lines.length ≤ min (start + size) lines.length
    · rw [if_pos hstop]
      simp
    · rw [if_neg hstop]
      rw [List.chain'_cons']
      refine ⟨?_, ih _ _⟩
      intro y hy
      have hys := lineWindowGo_head_start lines size overlap f (i + 1) _ y hy
      simp only [snapRel, hys]
      set stop := min (start + size) lines.length with hstopdef
      cases hfh : findHeading lines (stop - overlap) stop with
      | none =>
        left
        simp only [hfh, Option.getD_none]
        refine ⟨by trivial, ?_⟩
        intro j h1 h2
        rw [findHeading] at hfh
        exact find?_range'_none (headingAt lines) (stop - (stop - overlap))
          (stop - overlap) hfh j h1 (by omega)
      | some jh =>
        right
        simp only [hfh, Option.getD_some]
        obtain ⟨h1, h2, h3, h4⟩ := find?_range'_least (headingAt lines)
          (stop - (stop - overlap)) (stop - overlap) jh
          (by rw [findHeading] at hfh; exact hfh)
        exact ⟨h3, h1, by omega, fun j hj1 hj2 => h4 j hj1 hj2⟩

/-- **C2.** The chunking component supports two strategies selected by
configuration alone: under `lineWindow` it applies the line-window
splitter (parameters counted in lines) whatever the injected character
splitter is; under `sizeWindow` it applies the recursive character
splitter's pieces through `chunk_markdown`.  And the line-window splitter
obeys the heading-snap contract: between consecutive chunks, the next
start is `end - chunk_overlap`, snapped forward to the *first* structural
heading line within `[end - chunk_overlap, end)` when one exists there. -/
theorem C2_chunking_strategies (cfg : ChunkCfg)
    (sizeSplit : List Char → List (List Char)) (d : String) (text : List Char) :
    (cfg.strategy = .lineWindow →
      chunkDocument cfg sizeSplit d text =
        (lineWindowSplit cfg.chunkSize cfg.chunkOverlap text).map
          (lineChunkMeta d) ∧
      ∀ sizeSplit' : List Char → List (List Char),
        chunkDocument cfg sizeSplit' d text = chunkDocument cfg sizeSplit d text) ∧
    (cfg.strategy = .sizeWindow →
      chunkDocument cfg sizeSplit d text = chunk_markdown text d (sizeSplit text)) ∧
    List.Chain' (snapRel (splitNl text) cfg.chunkOverlap)
      (lineWindowSplit cfg.chunkSize cfg.chunkOverlap text) := by
  refine ⟨?_, ?_, ?_⟩
  · intro hs
    rw [chunkDocument, hs]
    exact ⟨rfl, fun split' => by rw [chunkDocument, hs]⟩
  · intro hs
    rw [chunkDocument, hs]
  · rw [lineWindowSplit]
    by_cases ht : text = []
    · rw [if_pos ht]
      simp
    · rw [if_neg ht]
      exact lineWindowGo_chain _ _ _ _ _ _

theorem C2_chunking_strategies_witness :
    ((⟨.lineWindow, 2, 1⟩ : ChunkCfg).strategy = .lineWindow ∧
      chunkDocument ⟨.lineWindow, 2, 1⟩ (fun t => [t]) "d"
          "# T\nx\ny\nz".toList =
        (lineWindowSplit 2 1 "# T\nx\ny\nz".toList).map (lineChunkMeta "d")) ∧
    ((⟨.sizeWindow, 2, 1⟩ : ChunkCfg).strategy = .sizeWindow ∧
      chunkDocument ⟨.sizeWindow, 2, 1⟩ (fun t => [t]) "d"
          "# T\nx\ny\nz".toList =
        chunk_markdown "# T\nx\ny\nz".toList "d" ["# T\nx\ny\nz".toList]) ∧
    List.Chain' (snapRel (splitNl "# T\nx\ny\nz".toList) 1)
      (lineWindowSplit 2 1 "# T\nx\ny\nz".toList) :=
  ⟨⟨rfl, ((C2_chunking_strategies ⟨.lineWindow, 2, 1⟩ (fun t => [t]) "d"
      "# T\nx\ny\nz".toList).1 rfl).1⟩,
   ⟨rfl, (C2_chunking_strategies ⟨.sizeWindow, 2, 1⟩ (fun t => [t]) "d"
      "# T\nx\ny\nz".toList).2.1 rfl⟩,
   (C2_chunking_strategies ⟨.lineWindow, 2, 1⟩ (fun t => [t]) "d"
      "# T\nx\ny\nz".toList).2.2⟩
